import Mathlib

/-!
Shallow embedding of `main.py` of the tenttiarkisto-uploader repository:
a script that parses staged exam PDF filenames, scrapes the archive's
upload form for course/language option tables, and submits each exam via
an authenticated multi-step form POST with per-request CSRF token renewal.

HTTP transport, the real filesystem and the archive server are modelled as
explicit data (`Server`, `FsState`); everything the script itself computes
is translated from the Python source.
-/

namespace TenttiArkisto

/-- Error taxonomy.  The Python code raises bare `Exception`s with message
strings; the spec names them.  `MissingLanguageKey` models the Python
`KeyError` raised by the unguarded `self.languages[language]` dict access
(line 49), which is outside the spec's taxonomy. -/
inductive Err where
  | MalformedFilename (path : String)
  | UnrecognizedDescription (path : String)
  | InvalidDate (path : String)
  | UnknownCourse (path : String)
  | DuplicateLanguage (language : String)
  | TokenNotFound
  | LoginFailed
  | SubmissionFailed (msg : String)
  | MissingLanguageKey (key : String)
  deriving Repr, DecidableEq

/-! ## Character and string helpers (Python semantics, ASCII fragment) -/

/-- ASCII digit test, for the `\d` regex class on the inputs at hand. -/
def isDigitChar (c : Char) : Bool := '0' ≤ c && c ≤ '9'

/-- ASCII alphanumeric test, the `[a-zA-Z0-9]` regex class. -/
def isAlnumChar (c : Char) : Bool :=
  ('a' ≤ c && c ≤ 'z') || ('A' ≤ c && c ≤ 'Z') || ('0' ≤ c && c ≤ '9')

/-- ASCII uppercase test. -/
def isUpperChar (c : Char) : Bool := 'A' ≤ c && c ≤ 'Z'

/-- Python's `\w` regex class (ASCII fragment): alphanumeric or underscore. -/
def isWordChar (c : Char) : Bool := isAlnumChar c || c == '_'

/-- Python `str.lower()` (ASCII fragment: maps `A`-`Z` to `a`-`z`). -/
def lowerChar (c : Char) : Char :=
  if isUpperChar c then Char.ofNat (c.toNat + 32) else c

/-- Python `str.lower()` on a whole string. -/
def pyLower (s : String) : String := String.mk (s.data.map lowerChar)

/-- Python `str.upper()` on one character (ASCII fragment). -/
def upperChar (c : Char) : Char :=
  if 'a' ≤ c && c ≤ 'z' then Char.ofNat (c.toNat - 32) else c

/-- Python `str.capitalize()`: first character uppercased, the rest
lowercased. -/
def pyCapitalize (s : String) : String :=
  match s.data with
  | [] => ""
  | c :: cs => String.mk (upperChar c :: cs.map lowerChar)

/-- `description.replace("-", " ")`: the separator is a single character,
so the replacement is a character map. -/
def pyReplaceDash (s : String) : String :=
  String.mk (s.data.map (fun c => if c == '-' then ' ' else c))

/-- Python `str.split(sep)` for a one-character separator: splits at every
occurrence, keeping empty parts; `"".split(sep) = [""]`. -/
def pySplit (sep : Char) : List Char → List (List Char)
  | [] => [[]]
  | c :: cs =>
    if c == sep then [] :: pySplit sep cs
    else
      match pySplit sep cs with
      | p :: ps => (c :: p) :: ps
      | [] => [[c]]

/-! ## Description classification (`findFiles`, lines 24-35)

`re.findall(r"<tag>-\d", description)` is a substring search: it is
non-empty exactly when `description` contains the literal tag followed by
a digit.  The trailing `\w?` of `osakoe-\d\w?` is optional and cannot
affect whether a match exists, so it does not appear in the search. -/

/-- `tag ++ <digit>` occurs at the head of `l`. -/
def headTagDigit (tag : List Char) (l : List Char) : Bool :=
  match tag, l with
  | [], c :: _ => isDigitChar c
  | [], [] => false
  | t :: ts, c :: cs => t == c && headTagDigit ts cs
  | _ :: _, [] => false

/-- `re.findall(tag ++ "\d", s)` is non-empty: `tag ++ <digit>` occurs
somewhere in `l`. -/
def containsTagDigit (tag : List Char) : List Char → Bool
  | [] => false
  | c :: cs => headTagDigit tag (c :: cs) || containsTagDigit tag cs

/-- Line 28: the Swedish branch condition. -/
def swedishDesc (d : String) : Bool :=
  d == "tentamen" || d == "sluttentamen" ||
  containsTagDigit "mellanförhör-".data d.data ||
  containsTagDigit "deltentamen-".data d.data

/-- Line 30: the English branch condition. -/
def englishDesc (d : String) : Bool :=
  d == "exam" || d == "final-exam" || containsTagDigit "medterm-".data d.data

/-- Line 32: the Finnish branch condition. -/
def finnishDesc (d : String) : Bool :=
  d == "tentti" || d == "välikoe" || d == "kesätentti" ||
  containsTagDigit "välikoe-".data d.data ||
  containsTagDigit "osakoe-".data d.data

/-! Spec-side reading of the classification table (§4.1): the pattern
rules read as whole tokens, `<tag>-<digit>` (with an optional trailing
word character for `osakoe`).  These are used to state the claim about
the table; the code's branch conditions above are the authority. -/

/-- `d` is exactly `tag` followed by one digit. -/
def fullTagDigit (tag : String) (d : String) : Prop :=
  ∃ c, isDigitChar c = true ∧ d.data = tag.data ++ [c]

/-- `d` is exactly `tag`, one digit, and an optional word character. -/
def fullTagDigitWord (tag : String) (d : String) : Prop :=
  ∃ c, isDigitChar c = true ∧
    (d.data = tag.data ++ [c] ∨ ∃ w, isWordChar w = true ∧ d.data = tag.data ++ [c, w])

/-- §4.1: Swedish tokens. -/
def specSwedish (d : String) : Prop :=
  d = "tentamen" ∨ d = "sluttentamen" ∨
  fullTagDigit "mellanförhör-" d ∨ fullTagDigit "deltentamen-" d

/-- §4.1: English tokens. -/
def specEnglish (d : String) : Prop :=
  d = "exam" ∨ d = "final-exam" ∨ fullTagDigit "medterm-" d

/-- §4.1: Finnish tokens. -/
def specFinnish (d : String) : Prop :=
  d = "tentti" ∨ d = "välikoe" ∨ d = "kesätentti" ∨
  fullTagDigit "välikoe-" d ∨ fullTagDigitWord "osakoe-" d

/-- Lines 24-35 of `findFiles`: reject a stem whose underscore count is
not two, split it into course code, date string and description, and
classify the description into a language name.  (Python checks
`stem.count("_") != 2` and then unpacks `stem.split("_")`; the count
equals the number of parts minus one, `pySplit_length`, so the unpack
always sees exactly three parts.) -/
def splitClassify (stem : String) : Except Err (String × String × String × String) :=
  if stem.data.count '_' != 2 then .error (.MalformedFilename stem)
  else
    match pySplit '_' stem.data with
    | [course, date_str, description] =>
      let d := String.mk description
      if swedishDesc d then .ok (String.mk course, String.mk date_str, d, "swedish")
      else if englishDesc d then .ok (String.mk course, String.mk date_str, d, "english")
      else if finnishDesc d then .ok (String.mk course, String.mk date_str, d, "finnish")
      else .error (.UnrecognizedDescription stem)
    | _ => .error (.MalformedFilename stem)

/-! ## Date parsing (`findFiles`, lines 37-47)

`datetime.strptime(date_str, "%Y%m%d")` compiles the format to the regex
`(?P<Y>\d\d\d\d)(?P<m>1[0-2]|0[1-9]|[1-9])(?P<d>3[01]|[12]\d|0[1-9]|[1-9])`,
matches it at the start of the string (first match in alternative order,
month alternatives tried before day alternatives backtrack), raises
`ValueError` when the string is not fully consumed, and finally constructs
`datetime(year, month, day)`, which raises `ValueError` on an invalid
calendar date.  `date.strftime("%Y-%m-%d")` zero-pads. -/

def digitVal (c : Char) : Nat := c.toNat - '0'.toNat

/-- The month alternatives `1[0-2]`, `0[1-9]`, `[1-9]` that match at the
head of `l`, in the regex's preference order, with the remaining input. -/
def monthAlts : List Char → List (Nat × List Char)
  | c1 :: c2 :: rest =>
    (if c1 == '1' && ('0' ≤ c2 && c2 ≤ '2') then [(10 + digitVal c2, rest)] else []) ++
    (if c1 == '0' && ('1' ≤ c2 && c2 ≤ '9') then [(digitVal c2, rest)] else []) ++
    (if '1' ≤ c1 && c1 ≤ '9' then [(digitVal c1, c2 :: rest)] else [])
  | [c1] => if '1' ≤ c1 && c1 ≤ '9' then [(digitVal c1, [])] else []
  | [] => []

/-- The first day alternative `3[01]`, `[12]\d`, `0[1-9]`, `[1-9]` that
matches at the head of `l`. -/
def dayMatch : List Char → Option (Nat × List Char)
  | c1 :: c2 :: rest =>
    if c1 == '3' && (c2 == '0' || c2 == '1') then some (30 + digitVal c2, rest)
    else if ('1' ≤ c1 && c1 ≤ '2') && isDigitChar c2 then
      some (10 * digitVal c1 + digitVal c2, rest)
    else if c1 == '0' && ('1' ≤ c2 && c2 ≤ '9') then some (digitVal c2, rest)
    else if '1' ≤ c1 && c1 ≤ '9' then some (digitVal c1, c2 :: rest)
    else none
  | [c1] => if '1' ≤ c1 && c1 ≤ '9' then some (digitVal c1, []) else none
  | [] => none

/-- First match of `(?P<m>...)(?P<d>...)`: month alternatives in order,
and for each, the first day alternative on the remaining input. -/
def mdFirstMatch (l : List Char) : Option (Nat × Nat × List Char) :=
  (monthAlts l).findSome? (fun p => (dayMatch p.2).map (fun q => (p.1, q.1, q.2)))

/-- The regex part of `strptime(s, "%Y%m%d")`: four digits of year, then
the first month/day match, returning the unconsumed suffix. -/
def strptimeYmdMatch (s : String) : Option (Nat × Nat × Nat × List Char) :=
  match s.data with
  | y1 :: y2 :: y3 :: y4 :: rest =>
    if isDigitChar y1 && isDigitChar y2 && isDigitChar y3 && isDigitChar y4 then
      (mdFirstMatch rest).map
        (fun p => (1000 * digitVal y1 + 100 * digitVal y2 + 10 * digitVal y3 + digitVal y4,
                   p.1, p.2.1, p.2.2))
    else none
  | _ => none

def isLeapYear (y : Nat) : Bool := y % 4 == 0 && (y % 100 != 0 || y % 400 == 0)

def daysInMonth (y m : Nat) : Nat :=
  if m == 2 then (if isLeapYear y then 29 else 28)
  else if m == 4 || m == 6 || m == 9 || m == 11 then 30
  else 31

/-- `datetime.strptime(s, "%Y%m%d")`, as year/month/day; `none` is the
`ValueError` caught at line 39 (no regex match, unconverted data
remaining, or an invalid calendar date / year 0). -/
def strptimeYmd (s : String) : Option (Nat × Nat × Nat) :=
  match strptimeYmdMatch s with
  | some (y, m, d, rest) =>
    if rest.isEmpty && 1 ≤ y && d ≤ daysInMonth y m then some (y, m, d) else none
  | none => none

def pad2 (n : Nat) : String := if n < 10 then "0" ++ toString n else toString n

def pad4 (n : Nat) : String :=
  if n < 10 then "000" ++ toString n
  else if n < 100 then "00" ++ toString n
  else if n < 1000 then "0" ++ toString n
  else toString n

/-- `date.strftime("%Y-%m-%d")` (line 47). -/
def strftimeISO : Nat × Nat × Nat → String
  | (y, m, d) => pad4 y ++ "-" ++ pad2 m ++ "-" ++ pad2 d

/-! ## Option tables (`fetchOptions`, lines 60-88)

Python dicts with string keys are modelled as association lists in
insertion order; `d[k]` is `lookupKV`, `k in d` is `(lookupKV …).isSome`,
and `d[k] = v` is `insertKV`. -/

def lookupKV (m : List (String × String)) (k : String) : Option String :=
  (m.find? (fun p => p.1 == k)).map (fun p => p.2)

def insertKV (m : List (String × String)) (k v : String) : List (String × String) :=
  if (m.find? (fun p => p.1 == k)).isSome then
    m.map (fun p => if p.1 == k then (k, v) else p)
  else m ++ [(k, v)]

/-- The loop body of lines 65-76, one scraped `(id, course_code)` match at
a time over the accumulated `(course table, duplicate reports)` pair.
Lowercase the code; an override wins and skips duplicate detection; an
unseen code is inserted; a duplicate with no override is reported (line
76 prints it) and the first-seen mapping kept. -/
def fetchCoursesGo (course_overrides : List (String × String)) :
    List (String × String) × List String → List (String × String) →
    List (String × String) × List String
  | acc, [] => acc
  | acc, m :: ms =>
    let c := pyLower m.2
    match lookupKV course_overrides c with
    | some v => fetchCoursesGo course_overrides (insertKV acc.1 c v, acc.2) ms
    | none =>
      match lookupKV acc.1 c with
      | none => fetchCoursesGo course_overrides (insertKV acc.1 c m.1, acc.2) ms
      | some _ => fetchCoursesGo course_overrides (acc.1, acc.2 ++ [c]) ms

/-- Lines 63-76: build the course table (starting from `{}`) from the
scraped `(id, course_code)` matches.  No code path raises: the duplicate
case only reports. -/
def fetchCourses (course_overrides scraped : List (String × String)) :
    List (String × String) × List String :=
  fetchCoursesGo course_overrides ([], []) scraped

/-- The loop body of lines 81-85: lowercase the scraped language name; a
key already present raises `DuplicateLanguage` (line 84); otherwise the
new key is inserted. -/
def fetchLanguagesGo (langs : List (String × String)) :
    List (String × String) → Except Err (List (String × String))
  | [] => .ok langs
  | m :: ms =>
    let l := pyLower m.2
    if (lookupKV langs l).isSome then .error (.DuplicateLanguage m.2)
    else fetchLanguagesGo (langs ++ [(l, m.1)]) ms

/-- Lines 78-85: build the language table (starting from `{}`) from the
scraped `(id, language)` matches. -/
def fetchLanguages (scraped : List (String × String)) :
    Except Err (List (String × String)) :=
  fetchLanguagesGo [] scraped

/-! ## Exam records (`findFiles`, lines 37-51) -/

/-- The dict appended at lines 45-51, with `path` kept as its stem. -/
structure ExamRecord where
  course : String
  exam_date : String
  desc : String
  lang : String
  stem : String
  deriving Repr, DecidableEq

/-- Lines 24-51 of `findFiles`, for one staged file stem: split and
classify the name, parse the date, look the course code up in the course
table, and build the exam record; the unguarded `self.languages[language]`
access is a `KeyError` (`MissingLanguageKey`) when the language name is
absent. -/
def processStem (courses languages : List (String × String)) (stem : String) :
    Except Err ExamRecord :=
  match splitClassify stem with
  | .error e => .error e
  | .ok (course, date_str, description, language) =>
    match strptimeYmd date_str with
    | none => .error (.InvalidDate stem)
    | some d =>
      match lookupKV courses course with
      | none => .error (.UnknownCourse stem)
      | some cid =>
        match lookupKV languages language with
        | none => .error (.MissingLanguageKey language)
        | some lid =>
          .ok { course := cid, exam_date := strftimeISO d,
                desc := pyCapitalize (pyReplaceDash description),
                lang := lid, stem := stem }

/-! ## CSRF token extraction (`getCSRFToken` lines 113-114, `__addExam`
lines 150-151)

`re.findall('name="csrfmiddlewaretoken" value="([a-zA-Z0-9]*)"', text)[0]`:
scan for the literal attribute prefix; at a match position the greedy
alphanumeric run must be followed by a closing quote (no shorter run can
be, since every alphanumeric character differs from `"`), else the scan
resumes at the next position.  `[0]` on an empty result raises
`IndexError` (`TokenNotFound`). -/

def tokenAttr : List Char := "name=\"csrfmiddlewaretoken\" value=\"".data

/-- Longest alphanumeric run at the head, with the remaining input. -/
def takeAlnum : List Char → List Char × List Char
  | [] => ([], [])
  | c :: cs =>
    if isAlnumChar c then
      let p := takeAlnum cs
      (c :: p.1, p.2)
    else ([], c :: cs)

/-- First match of the token regex in `l`: at a position where the
attribute prefix matches, the greedy alphanumeric run must be followed by
a closing quote, else the scan resumes one position further. -/
def findTokenMatch : List Char → Option String
  | [] => none
  | c :: cs =>
    if tokenAttr.isPrefixOf (c :: cs) then
      if (takeAlnum ((c :: cs).drop tokenAttr.length)).2.head? = some '"' then
        some (String.mk (takeAlnum ((c :: cs).drop tokenAttr.length)).1)
      else findTokenMatch cs
    else findTokenMatch cs

/-- Lines 113-114 (`getCSRFToken`, applied to the fetched page body):
first regex match, `IndexError` = `TokenNotFound` when there is none. -/
def getCSRFToken (body : String) : Except Err String :=
  match findTokenMatch body.data with
  | some t => .ok t
  | none => .error .TokenNotFound

/-- Lines 150-151 (`__addExam`, applied to the POST response body): the
same two lines of Python, duplicated verbatim in the source. -/
def addExamTokenExtract (body : String) : Except Err String :=
  match findTokenMatch body.data with
  | some t => .ok t
  | none => .error .TokenNotFound

/-! ## Submission loop (`addExams` lines 119-133, `__addExam` lines 135-153)

The HTTP transport and the archive are external collaborators: a `Server`
gives the body of the `k`-th GET of the submission endpoint and the
response to the `k`-th POST.  The filesystem side effect is the pair of
todo/done stem lists; `p.rename(f"{done_path}/{p.stem}.pdf")` (line 131)
moves a stem from todo to done unchanged.  The run state also records the
CSRF token sent with each POST, in order, for the token-renewal claims. -/

structure HttpResp where
  status : Nat
  body : String

structure Server where
  getResp : Nat → String
  postResp : Nat → HttpResp

structure FsState where
  todo : List String
  done : List String
  deriving Repr, DecidableEq

structure RunState where
  token : Option String
  nGets : Nat
  nPosts : Nat
  sent : List String
  fs : FsState

/-- Python truthiness of the `token` variable at line 125 (`if not token`):
`None` and the empty string are both falsy. -/
def tokenFalsy : Option String → Bool
  | none => true
  | some s => s == ""

/-- `needle` occurs as a contiguous run inside `hay`. -/
def listContains (needle : List Char) : List Char → Bool
  | [] => needle.isEmpty
  | c :: cs => needle.isPrefixOf (c :: cs) || listContains needle cs

/-- The message of the exception at line 133.  The Python source reads
`raise Exception("Failed to add exam {p}")` - a plain string literal, not
an f-string, so the braces and the variable name appear literally. -/
def failedAddMsg : String := "Failed to add exam \x7bp\x7d"

/-- Lines 125-126: when the held token is falsy, seed it by a GET of the
submission endpoint (`getCSRFToken`), bumping the GET counter; otherwise
keep the held token. -/
def seedResult (srv : Server) (s : RunState) : Except Err (String × Nat) :=
  if tokenFalsy s.token then
    match getCSRFToken (srv.getResp s.nGets) with
    | .ok t => .ok (t, s.nGets + 1)
    | .error err => .error err
  else .ok (s.token.getD "", s.nGets)

/-- The loop body of `addExams` (lines 123-133) together with `__addExam`
(lines 135-153): seed the token by a GET when the held token is falsy;
POST the record with the held token; extract the next token from the
response body (lines 150-151, before any file move; an absent pattern is
an `IndexError`); on HTTP 200 move the file and continue with the fresh
token, otherwise raise. -/
def addExamsGo (srv : Server) : RunState → List ExamRecord → RunState × Option Err
  | s, [] => (s, none)
  | s, e :: es =>
    match seedResult srv s with
    | .error err => (s, some err)
    | .ok (t, g) =>
      let r := srv.postResp s.nPosts
      let s1 : RunState :=
        { s with nGets := g, nPosts := s.nPosts + 1, sent := s.sent ++ [t] }
      match addExamTokenExtract r.body with
      | .error err => (s1, some err)
      | .ok t2 =>
        if r.status == 200 then
          let s2 : RunState :=
            { s1 with token := some t2,
                      fs := { todo := s1.fs.todo.erase e.stem,
                              done := s1.fs.done ++ [e.stem] } }
          addExamsGo srv s2 es
        else
          (s1, some (.SubmissionFailed failedAddMsg))

/-- `addExams` (line 119): the loop starts with `token = None` and the
given filesystem state. -/
def addExams (srv : Server) (exams : List ExamRecord) (fs0 : FsState) :
    RunState × Option Err :=
  addExamsGo srv ⟨none, 0, 0, [], fs0⟩ exams

/-- The token-provenance property of a POST trace: the first POST carries
the token extracted from the first GET of the submission endpoint, and
every later POST carries the token extracted from the body of the
immediately preceding POST response. -/
def sentFromServer (srv : Server) (sent : List String) : Prop :=
  (∀ h0 : 0 < sent.length,
     getCSRFToken (srv.getResp 0) = .ok (sent.get ⟨0, h0⟩)) ∧
  (∀ i, ∀ h : i + 1 < sent.length,
     addExamTokenExtract (srv.postResp i).body = .ok (sent.get ⟨i + 1, h⟩))

/-! # Theorems -/

/-! ## Splitting lemmas -/

theorem pySplit_ne_nil (sep : Char) (l : List Char) : pySplit sep l ≠ [] := by
  induction l with
  | nil => simp [pySplit]
  | cons c cs ih =>
    simp only [pySplit]
    split
    · simp
    · cases h : pySplit sep cs with
      | nil => simp
      | cons p ps => simp

/-- Python's `s.count(sep)` (number of non-overlapping occurrences of a
one-character separator) equals the number of split parts minus one. -/
theorem pySplit_length (sep : Char) (l : List Char) :
    (pySplit sep l).length = l.count sep + 1 := by
  induction l with
  | nil => simp [pySplit]
  | cons c cs ih =>
    simp only [pySplit]
    by_cases h : c == sep
    · have hc : c = sep := by exact eq_of_beq h
      simp [h, ih, hc, List.count_cons]
    · cases hps : pySplit sep cs with
      | nil => exact absurd hps (pySplit_ne_nil sep cs)
      | cons p ps =>
        have hcount : c = sep → False := fun hc => by simp [hc] at h
        simp only [h, if_neg, List.count_cons]
        rw [hps] at ih
        simp only [List.length_cons] at ih ⊢
        have : (sep == c) = false := by
          cases hb : sep == c
          · rfl
          · exact absurd (eq_of_beq hb).symm hcount
        simp [this, ih]

/-! ## Association-list lemmas -/

theorem lookupKV_isSome_iff (m : List (String × String)) (k : String) :
    (lookupKV m k).isSome ↔ k ∈ m.map Prod.fst := by
  induction m with
  | nil => simp [lookupKV]
  | cons p ps ih =>
    by_cases h : (p.1 == k) = true
    · simp [lookupKV, List.find?_cons, h, eq_of_beq h]
    · have hne : ¬(k = p.1) := fun he => by simp [he] at h
      have h' : (p.1 == k) = false := by simpa using h
      simp only [lookupKV, List.find?_cons, h', List.map_cons, List.mem_cons] at ih ⊢
      simp only [hne, false_or]
      exact ih

theorem lookupKV_none_iff (m : List (String × String)) (k : String) :
    lookupKV m k = none ↔ k ∉ m.map Prod.fst := by
  rw [← lookupKV_isSome_iff]
  cases lookupKV m k <;> simp

/-! ## C5: duplicate language names -/

/-- Once a key is present in the language table, processing any further
scraped entry whose (lowercased) name is that key raises. -/
theorem fetchLanguagesGo_mem_error (ms : List (String × String)) :
    ∀ (langs : List (String × String)) (id2 n2 : String)
      (post : List (String × String)),
      pyLower n2 ∈ langs.map Prod.fst →
      ∃ l, fetchLanguagesGo langs (ms ++ (id2, n2) :: post) =
             .error (.DuplicateLanguage l) := by
  induction ms with
  | nil =>
    intro langs id2 n2 post hmem
    have : (lookupKV langs (pyLower n2)).isSome :=
      (lookupKV_isSome_iff langs (pyLower n2)).mpr hmem
    exact ⟨n2, by simp [fetchLanguagesGo, this]⟩
  | cons m ms ih =>
    intro langs id2 n2 post hmem
    simp only [List.cons_append, fetchLanguagesGo]
    by_cases h : (lookupKV langs (pyLower m.2)).isSome
    · exact ⟨m.2, by simp [h]⟩
    · have h' : (lookupKV langs (pyLower m.2)).isSome = false := by
        simpa using h
      simp only [h', Bool.false_eq_true, if_false]
      apply ih
      simp only [List.map_append, List.map_cons]
      exact List.mem_append_left _ hmem

theorem fetchLanguagesGo_pair_error (pre : List (String × String)) :
    ∀ (langs mid post : List (String × String)) (id1 n1 id2 n2 : String),
      pyLower n1 = pyLower n2 →
      ∃ l, fetchLanguagesGo langs (pre ++ (id1, n1) :: mid ++ (id2, n2) :: post) =
             .error (.DuplicateLanguage l) := by
  induction pre with
  | nil =>
    intro langs mid post id1 n1 id2 n2 hlow
    simp only [List.nil_append, fetchLanguagesGo]
    by_cases h : (lookupKV langs (pyLower n1)).isSome
    · exact ⟨n1, by simp [h]⟩
    · have h' : (lookupKV langs (pyLower n1)).isSome = false := by simpa using h
      simp only [h', Bool.false_eq_true, if_false]
      apply fetchLanguagesGo_mem_error
      simp [hlow.symm]
  | cons p ps ih =>
    intro langs mid post id1 n1 id2 n2 hlow
    simp only [List.cons_append, fetchLanguagesGo]
    by_cases h : (lookupKV langs (pyLower p.2)).isSome
    · exact ⟨p.2, by simp [h]⟩
    · have h' : (lookupKV langs (pyLower p.2)).isSome = false := by simpa using h
      simp only [h', Bool.false_eq_true, if_false]
      exact ih _ mid post id1 n1 id2 n2 hlow

/-- C5: for any scraped option set containing two language options whose
names are equal after lowercasing (with any ids, in any positions),
language-table construction raises `DuplicateLanguage`; there is no
override mechanism for languages, so nothing conditions this failure. -/
theorem duplicate_language_raises
    (pre mid post : List (String × String)) (id1 n1 id2 n2 : String)
    (hlow : pyLower n1 = pyLower n2) :
    ∃ l, fetchLanguages (pre ++ (id1, n1) :: mid ++ (id2, n2) :: post) =
           .error (.DuplicateLanguage l) :=
  fetchLanguagesGo_pair_error pre [] mid post id1 n1 id2 n2 hlow

/-- C5 witness: two scraped options named `English`/`english` with
distinct ids make `fetchLanguages` fail with `DuplicateLanguage`. -/
theorem duplicate_language_raises_witness :
    ∃ l, fetchLanguages [("1", "English"), ("2", "english")] =
           .error (.DuplicateLanguage l) :=
  duplicate_language_raises [] [] [] "1" "English" "2" "english" (by rfl)

/-! ## C6: date parsing -/

/-- C6 counterexample: the seven-character string `"2024315"` is not in
strict `YYYYMMDD` form, yet `strptime(..., "%Y%m%d")` accepts it (`%m` and
`%d` also match single digits), so "for every date string not in strict
YYYYMMDD form, parsing raises InvalidDate" is false: the pipeline accepts
the file and renders `2024-03-15`. -/
theorem date_seven_digits_accepted_counterexample :
    strptimeYmd "2024315" = some (2024, 3, 15) ∧
    processStem [("cs-101", "7")] [("english", "1")] "cs-101_2024315_exam" =
      .ok { course := "7", exam_date := "2024-03-15", desc := "Exam",
            lang := "1", stem := "cs-101_2024315_exam" } :=
  ⟨rfl, rfl⟩

/-- C6 as amended: `"20240315"` parses and renders as `"2024-03-15"`, and
`"2024-3-15"` fails with `InvalidDate`; but strict `YYYYMMDD` is not
enforced: month and day may also match with a single digit, so
`"2024315"` parses to the same date instead of failing. -/
theorem date_parsing_amended :
    (strptimeYmd "20240315").map strftimeISO = some "2024-03-15" ∧
    processStem [("cs-101", "7")] [("english", "1")] "cs-101_20240315_exam" =
      .ok { course := "7", exam_date := "2024-03-15", desc := "Exam",
            lang := "1", stem := "cs-101_20240315_exam" } ∧
    strptimeYmd "2024-3-15" = none ∧
    processStem [("cs-101", "7")] [("english", "1")] "cs-101_2024-3-15_exam" =
      .error (.InvalidDate "cs-101_2024-3-15_exam") ∧
    (strptimeYmd "2024315").map strftimeISO = some "2024-03-15" :=
  ⟨rfl, rfl, rfl, rfl, rfl⟩

/-! ## C8: the failure diagnostic does not name the file -/

/-- C8: line 133 reads `raise Exception("Failed to add exam {p}")` — a
plain string literal, not an f-string — so the fatal error on a non-200
response carries the literal text `{p}` and not the offending file's
path.  Evaluated here on a failing record with stem
`cs-101_20240315_exam` and a 500 response: the error message is the
constant string and does not contain the stem. -/
theorem submission_failure_message_literal :
    (addExams
      { getResp := fun _ => "<input name=\"csrfmiddlewaretoken\" value=\"g1\">",
        postResp := fun _ =>
          { status := 500,
            body := "<input name=\"csrfmiddlewaretoken\" value=\"t1\">" } }
      [{ course := "7", exam_date := "2024-03-15", desc := "Exam",
         lang := "1", stem := "cs-101_20240315_exam" }]
      { todo := ["cs-101_20240315_exam"], done := [] }).2 =
      some (.SubmissionFailed failedAddMsg) ∧
    failedAddMsg = "Failed to add exam \x7bp\x7d" ∧
    listContains "cs-101_20240315_exam".data failedAddMsg.data = false := by
  refine ⟨rfl, rfl, by decide⟩

/-! ## Classification unfolding -/

/-- When the stem splits into exactly three parts, the underscore-count
guard passes and `splitClassify` is the three-way description test. -/
theorem splitClassify_of_split (stem : String)
    (course date_str description : List Char)
    (hsplit : pySplit '_' stem.data = [course, date_str, description]) :
    splitClassify stem =
      (if swedishDesc (String.mk description) then
        .ok (String.mk course, String.mk date_str, String.mk description, "swedish")
       else if englishDesc (String.mk description) then
        .ok (String.mk course, String.mk date_str, String.mk description, "english")
       else if finnishDesc (String.mk description) then
        .ok (String.mk course, String.mk date_str, String.mk description, "finnish")
       else .error (.UnrecognizedDescription stem)) := by
  have hc : stem.data.count '_' = 2 := by
    have hl := pySplit_length '_' stem.data
    rw [hsplit] at hl
    simp only [List.length_cons, List.length_nil] at hl
    omega
  unfold splitClassify
  rw [hc, hsplit]
  simp

/-! ## C10: unguarded language-table access -/

/-- C10: for a well-formed stem (three parts, recognized description,
valid date, known course), when the scraped language table lacks the
inferred language name, `findFiles` fails with the `KeyError` of the
unguarded `self.languages[language]` access — `MissingLanguageKey`, which
is none of the spec's taxonomy errors — even though filename parsing
itself succeeded. -/
theorem missing_language_key_error
    (courses languages : List (String × String)) (stem : String)
    (course date_str description : List Char) (lang : String)
    (hsplit : pySplit '_' stem.data = [course, date_str, description])
    (hdesc : (swedishDesc (String.mk description) || englishDesc (String.mk description) ||
              finnishDesc (String.mk description)) = true)
    (hlang : lang = (if swedishDesc (String.mk description) then "swedish"
                     else if englishDesc (String.mk description) then "english"
                     else "finnish"))
    (hdate : (strptimeYmd (String.mk date_str)).isSome = true)
    (hcourse : (lookupKV courses (String.mk course)).isSome = true)
    (hmissing : lookupKV languages lang = none) :
    processStem courses languages stem = .error (.MissingLanguageKey lang) := by
  have hcl := splitClassify_of_split stem course date_str description hsplit
  obtain ⟨d, hd⟩ := Option.isSome_iff_exists.mp hdate
  obtain ⟨cid, hcid⟩ := Option.isSome_iff_exists.mp hcourse
  subst hlang
  unfold processStem
  rw [hcl]
  by_cases hsw : swedishDesc (String.mk description) = true
  · simp only [hsw, if_true] at hmissing ⊢
    simp [hd, hcid, hmissing]
  · have hsw' : swedishDesc (String.mk description) = false := by simpa using hsw
    by_cases hen : englishDesc (String.mk description) = true
    · simp only [hsw', Bool.false_eq_true, if_false, hen, if_true] at hmissing ⊢
      simp [hd, hcid, hmissing]
    · have hen' : englishDesc (String.mk description) = false := by simpa using hen
      have hfi : finnishDesc (String.mk description) = true := by
        simpa [hsw', hen'] using hdesc
      simp only [hsw', hen', Bool.false_eq_true, if_false, hfi, if_true] at hmissing ⊢
      simp [hd, hcid, hmissing]

/-- C10 witness: languages scraped without `finnish`; the well-formed
Finnish file `cs-101_20240315_tentti.pdf` fails with the missing-key
error although its name parses. -/
theorem missing_language_key_error_witness :
    processStem [("cs-101", "7")] [("english", "1"), ("swedish", "2")]
        "cs-101_20240315_tentti" = .error (.MissingLanguageKey "finnish") :=
  missing_language_key_error [("cs-101", "7")] [("english", "1"), ("swedish", "2")]
    "cs-101_20240315_tentti" "cs-101".data "20240315".data "tentti".data "finnish"
    (by rfl) (by rfl) (by rfl) (by rfl) (by rfl) (by rfl)

/-! ## C4: course table lemmas -/

theorem lookupKV_cons_of_beq_false (p : String × String) (m : List (String × String))
    (k : String) (h : (p.1 == k) = false) : lookupKV (p :: m) k = lookupKV m k := by
  simp [lookupKV, List.find?_cons, h]

theorem lookupKV_cons_of_beq_true (p : String × String) (m : List (String × String))
    (k : String) (h : (p.1 == k) = true) : lookupKV (p :: m) k = some p.2 := by
  simp [lookupKV, List.find?_cons, h]

theorem lookupKV_map_overwrite (k v kq : String) (h : kq ≠ k)
    (m : List (String × String)) :
    lookupKV (m.map (fun q => if q.1 == k then (k, v) else q)) kq = lookupKV m kq := by
  have hkk : (k == kq) = false := by
    simp only [beq_eq_false_iff_ne, ne_eq]
    exact fun he => h he.symm
  induction m with
  | nil => simp
  | cons p ps ih =>
    obtain ⟨a, b⟩ := p
    by_cases hpk : (a == k) = true
    · have ha : a = k := eq_of_beq hpk
      subst ha
      rw [List.map_cons, if_pos hpk,
          lookupKV_cons_of_beq_false (a, v) _ kq hkk,
          lookupKV_cons_of_beq_false (a, b) _ kq hkk]
      exact ih
    · have hpk2 : (a == k) = false := by
        cases hx : a == k
        · rfl
        · exact absurd hx hpk
      rw [List.map_cons, if_neg (by simp [hpk2])]
      by_cases hq : (a == kq) = true
      · rw [lookupKV_cons_of_beq_true (a, b) _ kq hq,
            lookupKV_cons_of_beq_true (a, b) _ kq hq]
      · have hq2 : (a == kq) = false := by
          cases hx : a == kq
          · rfl
          · exact absurd hx hq
        rw [lookupKV_cons_of_beq_false (a, b) _ kq hq2,
            lookupKV_cons_of_beq_false (a, b) _ kq hq2]
        exact ih

theorem lookupKV_append_single_ne (k v kq : String) (h : kq ≠ k)
    (m : List (String × String)) :
    lookupKV (m ++ [(k, v)]) kq = lookupKV m kq := by
  have hkk : (k == kq) = false := by
    simp only [beq_eq_false_iff_ne, ne_eq]
    exact fun he => h he.symm
  induction m with
  | nil => simp [lookupKV, hkk]
  | cons p ps ih =>
    by_cases hq : (p.1 == kq) = true
    · rw [List.cons_append, lookupKV_cons_of_beq_true p _ kq hq,
          lookupKV_cons_of_beq_true p _ kq hq]
    · have hq2 : (p.1 == kq) = false := by
        cases hx : p.1 == kq
        · rfl
        · exact absurd hx hq
      rw [List.cons_append, lookupKV_cons_of_beq_false p _ kq hq2,
          lookupKV_cons_of_beq_false p _ kq hq2]
      exact ih

theorem lookupKV_insertKV_ne (m : List (String × String)) (k v kq : String)
    (h : kq ≠ k) :
    lookupKV (insertKV m k v) kq = lookupKV m kq := by
  unfold insertKV
  by_cases hs : ((m.find? (fun q => q.1 == k)).isSome) = true
  · rw [if_pos hs]
    exact lookupKV_map_overwrite k v kq h m
  · rw [if_neg hs]
    exact lookupKV_append_single_ne k v kq h m

theorem lookupKV_map_overwrite_self (k v : String) (m : List (String × String))
    (hs : ((m.find? (fun q => q.1 == k)).isSome) = true) :
    lookupKV (m.map (fun q => if q.1 == k then (k, v) else q)) k = some v := by
  induction m with
  | nil => simp at hs
  | cons p ps ih =>
    obtain ⟨a, b⟩ := p
    by_cases hpk : (a == k) = true
    · rw [List.map_cons, if_pos hpk, lookupKV_cons_of_beq_true (k, v) _ k (by simp)]
    · have hpk2 : (a == k) = false := by
        cases hx : a == k
        · rfl
        · exact absurd hx hpk
      have hs2 : ((ps.find? (fun q => q.1 == k)).isSome) = true := by
        rw [List.find?_cons] at hs
        simpa [hpk2] using hs
      rw [List.map_cons, if_neg (by simp [hpk2]),
          lookupKV_cons_of_beq_false (a, b) _ k hpk2]
      exact ih hs2

theorem lookupKV_append_single_self (k v : String) (m : List (String × String))
    (hs : ((m.find? (fun q => q.1 == k)).isSome) = false) :
    lookupKV (m ++ [(k, v)]) k = some v := by
  induction m with
  | nil => simp [lookupKV]
  | cons p ps ih =>
    have hpk2 : (p.1 == k) = false := by
      cases hx : p.1 == k
      · rfl
      · rw [List.find?_cons, hx] at hs
        simp at hs
    have hs2 : ((ps.find? (fun q => q.1 == k)).isSome) = false := by
      rw [List.find?_cons, hpk2] at hs
      exact hs
    rw [List.cons_append, lookupKV_cons_of_beq_false p _ k hpk2]
    exact ih hs2

theorem lookupKV_insertKV_self (m : List (String × String)) (k v : String) :
    lookupKV (insertKV m k v) k = some v := by
  unfold insertKV
  by_cases hs : ((m.find? (fun q => q.1 == k)).isSome) = true
  · rw [if_pos hs]
    exact lookupKV_map_overwrite_self k v m hs
  · have hs2 : ((m.find? (fun q => q.1 == k)).isSome) = false := by
      cases hx : ((m.find? (fun q => q.1 == k)).isSome)
      · rfl
      · exact absurd hx hs
    rw [if_neg hs]
    exact lookupKV_append_single_self k v m hs2

/-- One-step unfolding of the course-table loop. -/
theorem fetchCoursesGo_cons (ov : List (String × String))
    (acc : List (String × String) × List String) (m : String × String)
    (ms : List (String × String)) :
    fetchCoursesGo ov acc (m :: ms) =
      (match lookupKV ov (pyLower m.2) with
       | some v => fetchCoursesGo ov (insertKV acc.1 (pyLower m.2) v, acc.2) ms
       | none =>
         match lookupKV acc.1 (pyLower m.2) with
         | none => fetchCoursesGo ov (insertKV acc.1 (pyLower m.2) m.1, acc.2) ms
         | some _ => fetchCoursesGo ov (acc.1, acc.2 ++ [pyLower m.2]) ms) := rfl

/-- Step lemma: an overridden code is (re)inserted with the override value. -/
theorem fetchCoursesGo_cons_ov (ov : List (String × String))
    (acc : List (String × String) × List String) (m : String × String)
    (ms : List (String × String)) (v : String)
    (hov : lookupKV ov (pyLower m.2) = some v) :
    fetchCoursesGo ov acc (m :: ms) =
      fetchCoursesGo ov (insertKV acc.1 (pyLower m.2) v, acc.2) ms := by
  rw [fetchCoursesGo_cons, hov]

/-- Step lemma: an unseen code without an override is inserted with its
scraped id. -/
theorem fetchCoursesGo_cons_new (ov : List (String × String))
    (acc : List (String × String) × List String) (m : String × String)
    (ms : List (String × String))
    (hov : lookupKV ov (pyLower m.2) = none)
    (hl : lookupKV acc.1 (pyLower m.2) = none) :
    fetchCoursesGo ov acc (m :: ms) =
      fetchCoursesGo ov (insertKV acc.1 (pyLower m.2) m.1, acc.2) ms := by
  rw [fetchCoursesGo_cons, hov, hl]

/-- Step lemma: a duplicate without an override is reported and the table
left unchanged. -/
theorem fetchCoursesGo_cons_dup (ov : List (String × String))
    (acc : List (String × String) × List String) (m : String × String)
    (ms : List (String × String)) (w : String)
    (hov : lookupKV ov (pyLower m.2) = none)
    (hl : lookupKV acc.1 (pyLower m.2) = some w) :
    fetchCoursesGo ov acc (m :: ms) =
      fetchCoursesGo ov (acc.1, acc.2 ++ [pyLower m.2]) ms := by
  rw [fetchCoursesGo_cons, hov, hl]

theorem fetchCoursesGo_append (ov : List (String × String))
    (l1 : List (String × String)) :
    ∀ (acc : List (String × String) × List String) (l2 : List (String × String)),
      fetchCoursesGo ov acc (l1 ++ l2) =
        fetchCoursesGo ov (fetchCoursesGo ov acc l1) l2 := by
  induction l1 with
  | nil => intro acc l2; rfl
  | cons m ms ih =>
    intro acc l2
    rw [List.cons_append]
    cases hov : lookupKV ov (pyLower m.2) with
    | some v =>
      rw [fetchCoursesGo_cons_ov ov acc m (ms ++ l2) v hov,
          fetchCoursesGo_cons_ov ov acc m ms v hov]
      exact ih _ l2
    | none =>
      cases hl : lookupKV acc.1 (pyLower m.2) with
      | none =>
        rw [fetchCoursesGo_cons_new ov acc m (ms ++ l2) hov hl,
            fetchCoursesGo_cons_new ov acc m ms hov hl]
        exact ih _ l2
      | some w =>
        rw [fetchCoursesGo_cons_dup ov acc m (ms ++ l2) w hov hl,
            fetchCoursesGo_cons_dup ov acc m ms w hov hl]
        exact ih _ l2

theorem fetchCoursesGo_reports_mono (ov : List (String × String))
    (ms : List (String × String)) :
    ∀ (acc : List (String × String) × List String) (x : String),
      x ∈ acc.2 → x ∈ (fetchCoursesGo ov acc ms).2 := by
  induction ms with
  | nil => intro acc x hx; exact hx
  | cons m ms ih =>
    intro acc x hx
    cases hov : lookupKV ov (pyLower m.2) with
    | some v =>
      rw [fetchCoursesGo_cons_ov ov acc m ms v hov]
      exact ih _ x hx
    | none =>
      cases hl : lookupKV acc.1 (pyLower m.2) with
      | none =>
        rw [fetchCoursesGo_cons_new ov acc m ms hov hl]
        exact ih _ x hx
      | some w =>
        rw [fetchCoursesGo_cons_dup ov acc m ms w hov hl]
        exact ih _ x (List.mem_append_left _ hx)

/-- Every reported duplicate is either inherited or the lowered code of a
processed match that has no override. -/
theorem fetchCoursesGo_reports_from (ov : List (String × String))
    (ms : List (String × String)) :
    ∀ (acc : List (String × String) × List String) (x : String),
      x ∈ (fetchCoursesGo ov acc ms).2 →
      x ∈ acc.2 ∨ (lookupKV ov x = none ∧ ∃ m ∈ ms, x = pyLower m.2) := by
  induction ms with
  | nil => intro acc x hx; exact Or.inl hx
  | cons m ms ih =>
    intro acc x hx
    have lift : x ∈ acc.2 ∨ (lookupKV ov x = none ∧ ∃ m2 ∈ ms, x = pyLower m2.2) →
        x ∈ acc.2 ∨ (lookupKV ov x = none ∧ ∃ m2 ∈ m :: ms, x = pyLower m2.2) := by
      rintro (h | ⟨h1, m2, hm2, hx2⟩)
      · exact Or.inl h
      · exact Or.inr ⟨h1, m2, List.mem_cons_of_mem m hm2, hx2⟩
    cases hov : lookupKV ov (pyLower m.2) with
    | some v =>
      rw [fetchCoursesGo_cons_ov ov acc m ms v hov] at hx
      exact lift (ih (insertKV acc.1 (pyLower m.2) v, acc.2) x hx)
    | none =>
      cases hl : lookupKV acc.1 (pyLower m.2) with
      | none =>
        rw [fetchCoursesGo_cons_new ov acc m ms hov hl] at hx
        exact lift (ih (insertKV acc.1 (pyLower m.2) m.1, acc.2) x hx)
      | some w =>
        rw [fetchCoursesGo_cons_dup ov acc m ms w hov hl] at hx
        rcases ih (acc.1, acc.2 ++ [pyLower m.2]) x hx with h | h
        · rcases List.mem_append.mp h with h2 | h2
          · exact Or.inl h2
          · have hx2 : x = pyLower m.2 := by simpa using h2
            exact Or.inr ⟨hx2 ▸ hov, m, List.mem_cons_self m ms, hx2⟩
        · exact lift (Or.inr h)

/-- While the override table maps `c`, the course table keeps mapping `c`
to the override value through the rest of the scrape. -/
theorem fetchCoursesGo_override_preserved (ov : List (String × String))
    (c v : String) (hov : lookupKV ov c = some v)
    (ms : List (String × String)) :
    ∀ (acc : List (String × String) × List String),
      lookupKV acc.1 c = some v →
      lookupKV (fetchCoursesGo ov acc ms).1 c = some v := by
  induction ms with
  | nil => intro acc h; exact h
  | cons m ms ih =>
    intro acc h
    by_cases hc : pyLower m.2 = c
    · rw [fetchCoursesGo_cons_ov ov acc m ms v (by rw [hc]; exact hov)]
      refine ih _ ?_
      rw [hc]
      exact lookupKV_insertKV_self acc.1 c v
    · have hcne : c ≠ pyLower m.2 := fun he => hc he.symm
      cases hov2 : lookupKV ov (pyLower m.2) with
      | some w =>
        rw [fetchCoursesGo_cons_ov ov acc m ms w hov2]
        refine ih _ ?_
        rw [lookupKV_insertKV_ne acc.1 (pyLower m.2) w c hcne]
        exact h
      | none =>
        cases hl : lookupKV acc.1 (pyLower m.2) with
        | none =>
          rw [fetchCoursesGo_cons_new ov acc m ms hov2 hl]
          refine ih _ ?_
          rw [lookupKV_insertKV_ne acc.1 (pyLower m.2) m.1 c hcne]
          exact h
        | some w =>
          rw [fetchCoursesGo_cons_dup ov acc m ms w hov2 hl]
          exact ih _ h

/-- Any occurrence of an overridden code in the scrape forces the override
value into the final table. -/
theorem fetchCoursesGo_override_mem (ov : List (String × String))
    (c v : String) (hov : lookupKV ov c = some v)
    (ms : List (String × String)) :
    ∀ (acc : List (String × String) × List String),
      c ∈ ms.map (fun m => pyLower m.2) →
      lookupKV (fetchCoursesGo ov acc ms).1 c = some v := by
  induction ms with
  | nil => intro acc h; simp at h
  | cons m ms ih =>
    intro acc h
    by_cases hc : pyLower m.2 = c
    · rw [fetchCoursesGo_cons_ov ov acc m ms v (by rw [hc]; exact hov)]
      refine fetchCoursesGo_override_preserved ov c v hov ms _ ?_
      rw [hc]
      exact lookupKV_insertKV_self acc.1 c v
    · have h2 : c ∈ ms.map (fun m => pyLower m.2) := by
        rw [List.map_cons] at h
        rcases List.mem_cons.mp h with h3 | h3
        · exact absurd h3.symm hc
        · exact h3
      cases hov2 : lookupKV ov (pyLower m.2) with
      | some w =>
        rw [fetchCoursesGo_cons_ov ov acc m ms w hov2]
        exact ih _ h2
      | none =>
        cases hl : lookupKV acc.1 (pyLower m.2) with
        | none =>
          rw [fetchCoursesGo_cons_new ov acc m ms hov2 hl]
          exact ih _ h2
        | some w =>
          rw [fetchCoursesGo_cons_dup ov acc m ms w hov2 hl]
          exact ih _ h2

/-- Without an override for `c`, an existing mapping of `c` in the course
table survives the rest of the scrape (later duplicates are discarded). -/
theorem fetchCoursesGo_noov_preserved (ov : List (String × String))
    (c w : String) (hov : lookupKV ov c = none)
    (ms : List (String × String)) :
    ∀ (acc : List (String × String) × List String),
      lookupKV acc.1 c = some w →
      lookupKV (fetchCoursesGo ov acc ms).1 c = some w := by
  induction ms with
  | nil => intro acc h; exact h
  | cons m ms ih =>
    intro acc h
    by_cases hc : pyLower m.2 = c
    · rw [fetchCoursesGo_cons_dup ov acc m ms w (by rw [hc]; exact hov)
        (by rw [hc]; exact h)]
      exact ih _ h
    · have hcne : c ≠ pyLower m.2 := fun he => hc he.symm
      cases hov2 : lookupKV ov (pyLower m.2) with
      | some v =>
        rw [fetchCoursesGo_cons_ov ov acc m ms v hov2]
        refine ih _ ?_
        rw [lookupKV_insertKV_ne acc.1 (pyLower m.2) v c hcne]
        exact h
      | none =>
        cases hl : lookupKV acc.1 (pyLower m.2) with
        | none =>
          rw [fetchCoursesGo_cons_new ov acc m ms hov2 hl]
          refine ih _ ?_
          rw [lookupKV_insertKV_ne acc.1 (pyLower m.2) m.1 c hcne]
          exact h
        | some v =>
          rw [fetchCoursesGo_cons_dup ov acc m ms v hov2 hl]
          exact ih _ h

/-- A code that never occurs (lowercased) in the scraped run stays absent. -/
theorem fetchCoursesGo_none_preserved (ov : List (String × String))
    (c : String) (ms : List (String × String))
    (hms : ∀ m ∈ ms, pyLower m.2 ≠ c) :
    ∀ (acc : List (String × String) × List String),
      lookupKV acc.1 c = none →
      lookupKV (fetchCoursesGo ov acc ms).1 c = none := by
  induction ms with
  | nil => intro acc h; exact h
  | cons m ms ih =>
    intro acc h
    have hmc : pyLower m.2 ≠ c := hms m (List.mem_cons_self m ms)
    have hms2 : ∀ m2 ∈ ms, pyLower m2.2 ≠ c := fun m2 hm2 =>
      hms m2 (List.mem_cons_of_mem m hm2)
    have hcne : c ≠ pyLower m.2 := fun he => hmc he.symm
    cases hov2 : lookupKV ov (pyLower m.2) with
    | some v =>
      rw [fetchCoursesGo_cons_ov ov acc m ms v hov2]
      refine ih hms2 _ ?_
      rw [lookupKV_insertKV_ne acc.1 (pyLower m.2) v c hcne]
      exact h
    | none =>
      cases hl : lookupKV acc.1 (pyLower m.2) with
      | none =>
        rw [fetchCoursesGo_cons_new ov acc m ms hov2 hl]
        refine ih hms2 _ ?_
        rw [lookupKV_insertKV_ne acc.1 (pyLower m.2) m.1 c hcne]
        exact h
      | some v =>
        rw [fetchCoursesGo_cons_dup ov acc m ms v hov2 hl]
        exact ih hms2 _ h

/-- C4: a course code in the caller-supplied override map resolves to the
override value whenever the code is scraped at all, no matter how many
scraped options carry it or what their ids are, and no duplicate conflict
is reported for it; a duplicated code with no override keeps the
first-seen scraped id and is reported.  (`fetchCourses` is total: the
duplicate path only reports, no error is raised.) -/
theorem course_override_precedence_and_duplicates
    (ov scraped : List (String × String)) :
    (∀ c v, lookupKV ov c = some v → c ∈ scraped.map (fun m => pyLower m.2) →
       lookupKV (fetchCourses ov scraped).1 c = some v ∧
       c ∉ (fetchCourses ov scraped).2) ∧
    (∀ (pre : List (String × String)) (idf nf : String)
       (r1 : List (String × String)) (m2 : String × String)
       (r2 : List (String × String)),
       scraped = pre ++ (idf, nf) :: r1 ++ m2 :: r2 →
       (∀ m ∈ pre, pyLower m.2 ≠ pyLower nf) →
       pyLower m2.2 = pyLower nf →
       lookupKV ov (pyLower nf) = none →
       lookupKV (fetchCourses ov scraped).1 (pyLower nf) = some idf ∧
       pyLower nf ∈ (fetchCourses ov scraped).2) := by
  constructor
  · intro c v hov hmem
    refine ⟨fetchCoursesGo_override_mem ov c v hov scraped _ hmem, ?_⟩
    intro hrep
    rcases fetchCoursesGo_reports_from ov scraped _ c hrep with h | ⟨h, _⟩
    · simp at h
    · rw [h] at hov
      exact Option.noConfusion hov
  · intro pre idf nf r1 m2 r2 hscr hpre hm2 hov
    subst hscr
    unfold fetchCourses
    rw [fetchCoursesGo_append, fetchCoursesGo_append]
    have hAnone : lookupKV (fetchCoursesGo ov ([], []) pre).1 (pyLower nf) = none :=
      fetchCoursesGo_none_preserved ov (pyLower nf) pre hpre ([], []) rfl
    rw [fetchCoursesGo_cons_new ov _ (idf, nf) r1 hov hAnone]
    have hBlook :
        lookupKV (fetchCoursesGo ov
          (insertKV (fetchCoursesGo ov ([], []) pre).1 (pyLower nf) idf,
           (fetchCoursesGo ov ([], []) pre).2) r1).1 (pyLower nf) = some idf :=
      fetchCoursesGo_noov_preserved ov (pyLower nf) idf hov r1 _
        (lookupKV_insertKV_self (fetchCoursesGo ov ([], []) pre).1 (pyLower nf) idf)
    rw [fetchCoursesGo_cons_dup ov _ m2 r2 idf (by rw [hm2]; exact hov)
      (by rw [hm2]; exact hBlook)]
    constructor
    · exact fetchCoursesGo_noov_preserved ov (pyLower nf) idf hov r2 _ hBlook
    · exact fetchCoursesGo_reports_mono ov r2 _ (pyLower nf)
        (List.mem_append_right _ (by simp [hm2]))

/-- C4 witness: override `{"cs-101": "42"}` with scraped duplicates
mapping `cs-101` to `7` and `99` resolves to `42` with no conflict
reported; without an override the same duplicates keep the first-seen id
`7` and report the conflict. -/
theorem course_override_precedence_and_duplicates_witness :
    (lookupKV (fetchCourses [("cs-101", "42")] [("7", "cs-101"), ("99", "cs-101")]).1
       "cs-101" = some "42" ∧
     "cs-101" ∉ (fetchCourses [("cs-101", "42")] [("7", "cs-101"), ("99", "cs-101")]).2) ∧
    (lookupKV (fetchCourses [] [("7", "cs-101"), ("99", "cs-101")]).1
       "cs-101" = some "7" ∧
     "cs-101" ∈ (fetchCourses [] [("7", "cs-101"), ("99", "cs-101")]).2) := by
  constructor
  · have h := (course_override_precedence_and_duplicates
      [("cs-101", "42")] [("7", "cs-101"), ("99", "cs-101")]).1
      "cs-101" "42" (by rfl) (by decide)
    exact h
  · have h := (course_override_precedence_and_duplicates
      [] [("7", "cs-101"), ("99", "cs-101")]).2
      [] "7" "cs-101" [] ("99", "cs-101") []
      (by rfl) (by intro m hm; simp at hm) (by rfl) (by rfl)
    have hlow : pyLower "cs-101" = "cs-101" := by decide
    rw [hlow] at h
    exact h

/-! ## C7: CSRF token extraction -/

theorem takeAlnum_append (l : List Char) :
    (takeAlnum l).1 ++ (takeAlnum l).2 = l := by
  induction l with
  | nil => rfl
  | cons c cs ih =>
    simp only [takeAlnum]
    by_cases h : isAlnumChar c = true
    · simp [h, ih]
    · simp [h]

theorem takeAlnum_all (l : List Char) :
    (takeAlnum l).1.all isAlnumChar = true := by
  induction l with
  | nil => rfl
  | cons c cs ih =>
    simp only [takeAlnum]
    by_cases h : isAlnumChar c = true
    · simp [h, ih]
    · simp [h]

/-- A successful scan exhibits the regex match: the attribute prefix, an
alphanumeric token and a closing quote, somewhere in the body. -/
theorem findTokenMatch_some (l : List Char) :
    ∀ t, findTokenMatch l = some t →
      ∃ pre suf, l = pre ++ tokenAttr ++ t.data ++ '"' :: suf ∧
        t.data.all isAlnumChar = true := by
  induction l with
  | nil => intro t h; simp [findTokenMatch] at h
  | cons c cs ih =>
    intro t h
    by_cases hp : tokenAttr.isPrefixOf (c :: cs) = true
    · obtain ⟨rest, hrest⟩ := List.isPrefixOf_iff_prefix.mp hp
      have hdrop : (c :: cs).drop tokenAttr.length = rest := by
        rw [← hrest, List.drop_left]
      simp only [findTokenMatch] at h
      rw [if_pos hp, hdrop] at h
      by_cases hq : (takeAlnum rest).2.head? = some '"'
      · rw [if_pos hq] at h
        have ht : String.mk (takeAlnum rest).1 = t := Option.some.inj h
        subst ht
        cases hq2 : (takeAlnum rest).2 with
        | nil => rw [hq2] at hq; simp at hq
        | cons q qs =>
          rw [hq2] at hq
          have hqc : q = '"' := by simpa using hq
          subst hqc
          refine ⟨[], qs, ?_, takeAlnum_all rest⟩
          have hdata : (String.mk (takeAlnum rest).1).data = (takeAlnum rest).1 := rfl
          have happ2 : (takeAlnum rest).1 ++ '"' :: qs = rest := by
            rw [← hq2]
            exact takeAlnum_append rest
          rw [hdata]
          calc c :: cs = tokenAttr ++ rest := hrest.symm
            _ = tokenAttr ++ ((takeAlnum rest).1 ++ '"' :: qs) := by rw [happ2]
            _ = [] ++ tokenAttr ++ (takeAlnum rest).1 ++ '"' :: qs := by
                simp [List.append_assoc]
      · rw [if_neg hq] at h
        obtain ⟨pre, suf, hls, hall⟩ := ih t h
        exact ⟨c :: pre, suf, by simp [hls], hall⟩
    · simp only [findTokenMatch] at h
      rw [if_neg hp] at h
      obtain ⟨pre, suf, hls, hall⟩ := ih t h
      exact ⟨c :: pre, suf, by simp [hls], hall⟩

/-- C7: the token extraction of `getCSRFToken` (lines 113-114) and the one
duplicated verbatim in `__addExam` (lines 150-151) are one and the same
operation on HTML bodies, and on every body in which the pattern
`name="csrfmiddlewaretoken" value="<alnum>"` has no match both fail with
`TokenNotFound` (the `IndexError` of `matches[0]`), not in any other way. -/
theorem token_extraction_shared_and_total_failure :
    (∀ body : String, getCSRFToken body = addExamTokenExtract body) ∧
    (∀ body : String,
      (¬ ∃ pre tok suf : List Char,
          body.data = pre ++ tokenAttr ++ tok ++ '"' :: suf ∧
          tok.all isAlnumChar = true) →
      getCSRFToken body = .error .TokenNotFound ∧
      addExamTokenExtract body = .error .TokenNotFound) := by
  constructor
  · intro body
    rfl
  · intro body hno
    have hnone : findTokenMatch body.data = none := by
      cases hm : findTokenMatch body.data with
      | none => rfl
      | some t =>
        obtain ⟨pre, suf, hls, hall⟩ := findTokenMatch_some body.data t hm
        exact absurd ⟨pre, t.data, suf, hls, hall⟩ hno
    constructor
    · unfold getCSRFToken
      rw [hnone]
    · unfold addExamTokenExtract
      rw [hnone]

/-- C7 witness: a body with no occurrence of the pattern makes both
extraction sites fail with `TokenNotFound`. -/
theorem token_extraction_shared_witness :
    getCSRFToken "<html></html>" = .error .TokenNotFound ∧
    addExamTokenExtract "<html></html>" = .error .TokenNotFound :=
  token_extraction_shared_and_total_failure.2 "<html></html>" (by
    rintro ⟨pre, tok, suf, hls, -⟩
    have hlen := congrArg List.length hls
    have h1 : ("<html></html>".data).length = 13 := rfl
    have h2 : tokenAttr.length = 34 := rfl
    rw [h1] at hlen
    simp only [List.length_append, List.length_cons, h2] at hlen
    omega)

/-! ## C1: classification lemmas -/

theorem headTagDigit_iff (tag : List Char) :
    ∀ l, headTagDigit tag l = true ↔
      ∃ c rest, isDigitChar c = true ∧ l = tag ++ c :: rest := by
  induction tag with
  | nil =>
    intro l
    cases l with
    | nil =>
      simp only [headTagDigit, List.nil_append]
      constructor
      · intro h; exact absurd h (by simp)
      · rintro ⟨c, rest, hc, hl⟩
        exact absurd hl (by simp)
    | cons c cs =>
      simp only [headTagDigit, List.nil_append]
      constructor
      · intro h; exact ⟨c, cs, h, rfl⟩
      · rintro ⟨c', rest, hc, hl⟩
        injection hl with h1 h2
        rw [h1]
        exact hc
  | cons t ts ih =>
    intro l
    cases l with
    | nil =>
      simp only [headTagDigit]
      constructor
      · intro h; exact absurd h (by simp)
      · rintro ⟨c, rest, hc, hl⟩
        exact absurd hl (by simp)
    | cons c cs =>
      simp only [headTagDigit, Bool.and_eq_true, beq_iff_eq]
      rw [ih cs]
      constructor
      · rintro ⟨htc, c', rest, hd, hcs⟩
        refine ⟨c', rest, hd, ?_⟩
        rw [List.cons_append, ← htc, hcs]
      · rintro ⟨c', rest, hd, hl⟩
        rw [List.cons_append] at hl
        injection hl with h1 h2
        exact ⟨h1.symm, c', rest, hd, h2⟩

theorem containsTagDigit_iff (tag : List Char) (l : List Char) :
    containsTagDigit tag l = true ↔
      ∃ pre c post, isDigitChar c = true ∧ l = pre ++ tag ++ c :: post := by
  induction l with
  | nil =>
    constructor
    · intro h; simp [containsTagDigit] at h
    · rintro ⟨pre, c, post, hc, hl⟩
      have := congrArg List.length hl
      simp [List.length_append] at this
      omega
  | cons a as ih =>
    constructor
    · intro h
      simp only [containsTagDigit] at h
      rcases Bool.or_eq_true_iff.mp h with h1 | h2
      · obtain ⟨c, rest, hc, hl⟩ := (headTagDigit_iff tag (a :: as)).mp h1
        exact ⟨[], c, rest, hc, by simpa using hl⟩
      · obtain ⟨pre, c, post, hc, hl⟩ := ih.mp h2
        exact ⟨a :: pre, c, post, hc, by simp [hl]⟩
    · rintro ⟨pre, c, post, hc, hl⟩
      simp only [containsTagDigit]
      apply Bool.or_eq_true_iff.mpr
      cases pre with
      | nil =>
        left
        exact (headTagDigit_iff tag (a :: as)).mpr ⟨c, post, hc, by simpa using hl⟩
      | cons p pre2 =>
        right
        simp only [List.cons_append] at hl
        injection hl with h1 h2
        exact ih.mpr ⟨pre2, c, post, hc, h2⟩

theorem containsTagDigit_of_append (tag : List Char) (c : Char) (rest : List Char)
    (hc : isDigitChar c = true) :
    containsTagDigit tag (tag ++ c :: rest) = true :=
  (containsTagDigit_iff tag _).mpr ⟨[], c, rest, hc, by simp⟩

theorem containsTagDigit_false_of_short (tag l : List Char)
    (hlen : l.length < tag.length + 1) :
    containsTagDigit tag l = false := by
  cases hx : containsTagDigit tag l
  · rfl
  · obtain ⟨pre, c, post, hc, hl⟩ := (containsTagDigit_iff tag l).mp hx
    have := congrArg List.length hl
    simp [List.length_append] at this
    omega

theorem containsTagDigit_full (tag l : List Char)
    (h : containsTagDigit tag l = true) (hlen : l.length = tag.length + 1) :
    ∃ c, isDigitChar c = true ∧ l = tag ++ [c] := by
  obtain ⟨pre, c, post, hc, hl⟩ := (containsTagDigit_iff tag l).mp h
  have hlen2 := congrArg List.length hl
  simp only [List.length_append, List.length_cons] at hlen2
  have hpre : pre = [] := List.eq_nil_of_length_eq_zero (by omega)
  have hpost : post = [] := List.eq_nil_of_length_eq_zero (by omega)
  subst hpre
  subst hpost
  exact ⟨c, hc, by simpa using hl⟩

theorem string_beq_false_of_length (d s : String)
    (h : d.data.length ≠ s.data.length) : (d == s) = false := by
  cases hb : d == s
  · rfl
  · have hde : d = s := eq_of_beq hb
    subst hde
    exact absurd rfl h

/-- A §4.1 Swedish token satisfies the code's Swedish branch condition. -/
theorem specSwedish_code (d : String) (h : specSwedish d) : swedishDesc d = true := by
  rcases h with h | h | ⟨c, hc, hd⟩ | ⟨c, hc, hd⟩
  · subst h; decide
  · subst h; decide
  · have hcon : containsTagDigit "mellanförhör-".data d.data = true := by
      rw [hd]; exact containsTagDigit_of_append _ c [] hc
    simp [swedishDesc, hcon]
  · have hcon : containsTagDigit "deltentamen-".data d.data = true := by
      rw [hd]; exact containsTagDigit_of_append _ c [] hc
    simp [swedishDesc, hcon]

/-- A §4.1 English token satisfies the code's English branch condition and
misses the Swedish one checked before it. -/
theorem specEnglish_code (d : String) (h : specEnglish d) :
    swedishDesc d = false ∧ englishDesc d = true := by
  rcases h with h | h | ⟨c, hc, hd⟩
  · subst h; exact ⟨by decide, by decide⟩
  · subst h; exact ⟨by decide, by decide⟩
  · have hlen : d.data.length = 9 := by rw [hd]; rfl
    constructor
    · unfold swedishDesc
      rw [string_beq_false_of_length d "tentamen" (by rw [hlen]; decide),
          string_beq_false_of_length d "sluttentamen" (by rw [hlen]; decide),
          containsTagDigit_false_of_short "mellanförhör-".data d.data
            (by rw [hlen]; decide),
          containsTagDigit_false_of_short "deltentamen-".data d.data
            (by rw [hlen]; decide)]
      rfl
    · have hcon : containsTagDigit "medterm-".data d.data = true := by
        rw [hd]; exact containsTagDigit_of_append _ c [] hc
      simp [englishDesc, hcon]

/-- A §4.1 Finnish token satisfies the code's Finnish branch condition and
misses the Swedish and English ones checked before it. -/
theorem specFinnish_code (d : String) (h : specFinnish d) :
    swedishDesc d = false ∧ englishDesc d = false ∧ finnishDesc d = true := by
  rcases h with h | h | h | ⟨c, hc, hd⟩ | ⟨c, hc, hor⟩
  · subst h; exact ⟨by decide, by decide, by decide⟩
  · subst h; exact ⟨by decide, by decide, by decide⟩
  · subst h; exact ⟨by decide, by decide, by decide⟩
  · -- välikoe-<digit>, nine characters
    have hlen : d.data.length = 9 := by rw [hd]; rfl
    refine ⟨?_, ?_, ?_⟩
    · unfold swedishDesc
      rw [string_beq_false_of_length d "tentamen" (by rw [hlen]; decide),
          string_beq_false_of_length d "sluttentamen" (by rw [hlen]; decide),
          containsTagDigit_false_of_short "mellanförhör-".data d.data
            (by rw [hlen]; decide),
          containsTagDigit_false_of_short "deltentamen-".data d.data
            (by rw [hlen]; decide)]
      rfl
    · unfold englishDesc
      have hmed : containsTagDigit "medterm-".data d.data = false := by
        cases hx : containsTagDigit "medterm-".data d.data
        · rfl
        · obtain ⟨c2, hc2, he⟩ :=
            containsTagDigit_full "medterm-".data d.data hx (by rw [hlen]; rfl)
          rw [hd] at he
          have hh := congrArg List.head? he
          have h1 : ("välikoe-".data ++ [c]).head? = some 'v' := rfl
          have h2 : ("medterm-".data ++ [c2]).head? = some 'm' := rfl
          rw [h1, h2] at hh
          simp at hh
      rw [string_beq_false_of_length d "exam" (by rw [hlen]; decide),
          string_beq_false_of_length d "final-exam" (by rw [hlen]; decide), hmed]
      rfl
    · have hcon : containsTagDigit "välikoe-".data d.data = true := by
        rw [hd]; exact containsTagDigit_of_append _ c [] hc
      simp [finnishDesc, hcon]
  · -- osakoe-<digit> or osakoe-<digit><word char>
    have hcon : containsTagDigit "osakoe-".data d.data = true := by
      rcases hor with hd | ⟨w, hw, hd⟩
      · rw [hd]; exact containsTagDigit_of_append _ c [] hc
      · rw [hd]
        have : "osakoe-".data ++ [c, w] = "osakoe-".data ++ c :: [w] := rfl
        rw [this]
        exact containsTagDigit_of_append _ c [w] hc
    rcases hor with hd | ⟨w, hw, hd⟩
    · -- eight characters
      have hlen : d.data.length = 8 := by rw [hd]; rfl
      refine ⟨?_, ?_, by simp [finnishDesc, hcon]⟩
      · unfold swedishDesc
        have hten : (d == "tentamen") = false := by
          cases hb : d == "tentamen"
          · rfl
          · have hde : d = "tentamen" := eq_of_beq hb
            rw [hde] at hd
            have hh := congrArg List.head? hd
            have h1 : ("tentamen".data).head? = some 't' := rfl
            have h2 : ("osakoe-".data ++ [c]).head? = some 'o' := rfl
            rw [h1, h2] at hh
            simp at hh
        rw [hten,
            string_beq_false_of_length d "sluttentamen" (by rw [hlen]; decide),
            containsTagDigit_false_of_short "mellanförhör-".data d.data
              (by rw [hlen]; decide),
            containsTagDigit_false_of_short "deltentamen-".data d.data
              (by rw [hlen]; decide)]
        rfl
      · unfold englishDesc
        rw [string_beq_false_of_length d "exam" (by rw [hlen]; decide),
            string_beq_false_of_length d "final-exam" (by rw [hlen]; decide),
            containsTagDigit_false_of_short "medterm-".data d.data
              (by rw [hlen]; decide)]
        rfl
    · -- nine characters
      have hlen : d.data.length = 9 := by rw [hd]; rfl
      refine ⟨?_, ?_, by simp [finnishDesc, hcon]⟩
      · unfold swedishDesc
        rw [string_beq_false_of_length d "tentamen" (by rw [hlen]; decide),
            string_beq_false_of_length d "sluttentamen" (by rw [hlen]; decide),
            containsTagDigit_false_of_short "mellanförhör-".data d.data
              (by rw [hlen]; decide),
            containsTagDigit_false_of_short "deltentamen-".data d.data
              (by rw [hlen]; decide)]
        rfl
      · unfold englishDesc
        have hmed : containsTagDigit "medterm-".data d.data = false := by
          cases hx : containsTagDigit "medterm-".data d.data
          · rfl
          · obtain ⟨c2, hc2, he⟩ :=
              containsTagDigit_full "medterm-".data d.data hx (by rw [hlen]; rfl)
            rw [hd] at he
            have hh := congrArg List.head? he
            have h1 : ("osakoe-".data ++ [c, w]).head? = some 'o' := rfl
            have h2 : ("medterm-".data ++ [c2]).head? = some 'm' := rfl
            rw [h1, h2] at hh
            simp at hh
        rw [string_beq_false_of_length d "exam" (by rw [hlen]; decide),
            string_beq_false_of_length d "final-exam" (by rw [hlen]; decide), hmed]
        rfl

/-- C1: for a stem that splits into exactly three parts whose description
is a recognized token, lines 24-35 succeed and assign the language of the
classification table (Swedish, English and Finnish rules as in §4.1); a
three-part stem whose description matches none of the code's rules fails
with `UnrecognizedDescription`; any stem with an underscore count other
than two fails with `MalformedFilename`. -/
theorem classification_table_correct (stem : String) :
    (∀ course date_str description : List Char,
       pySplit '_' stem.data = [course, date_str, description] →
       (specSwedish (String.mk description) →
          splitClassify stem = .ok (String.mk course, String.mk date_str,
            String.mk description, "swedish")) ∧
       (specEnglish (String.mk description) →
          splitClassify stem = .ok (String.mk course, String.mk date_str,
            String.mk description, "english")) ∧
       (specFinnish (String.mk description) →
          splitClassify stem = .ok (String.mk course, String.mk date_str,
            String.mk description, "finnish")) ∧
       ((swedishDesc (String.mk description) || englishDesc (String.mk description) ||
         finnishDesc (String.mk description)) = false →
          splitClassify stem = .error (.UnrecognizedDescription stem))) ∧
    (stem.data.count '_' ≠ 2 →
       splitClassify stem = .error (.MalformedFilename stem)) := by
  constructor
  · intro course date_str description hsplit
    have hcl := splitClassify_of_split stem course date_str description hsplit
    refine ⟨?_, ?_, ?_, ?_⟩
    · intro hspec
      rw [hcl, if_pos (specSwedish_code _ hspec)]
    · intro hspec
      obtain ⟨hsw, hen⟩ := specEnglish_code _ hspec
      rw [hcl, if_neg (by simp [hsw]), if_pos hen]
    · intro hspec
      obtain ⟨hsw, hen, hfi⟩ := specFinnish_code _ hspec
      rw [hcl, if_neg (by simp [hsw]), if_neg (by simp [hen]), if_pos hfi]
    · intro hnone
      simp only [Bool.or_eq_false_iff] at hnone
      obtain ⟨⟨hsw, hen⟩, hfi⟩ := hnone
      rw [hcl, if_neg (by simp [hsw]), if_neg (by simp [hen]), if_neg (by simp [hfi])]
  · intro hcount
    unfold splitClassify
    rw [if_pos (by simpa [bne_iff_ne] using hcount)]

/-- C1 witness: one concrete stem per classification outcome, each
obtained from the classification theorem itself. -/
theorem classification_table_correct_witness :
    splitClassify "abc_20240101_tentamen" =
      .ok ("abc", "20240101", "tentamen", "swedish") ∧
    splitClassify "abc_20240101_medterm-3" =
      .ok ("abc", "20240101", "medterm-3", "english") ∧
    splitClassify "abc_20240101_osakoe-1b" =
      .ok ("abc", "20240101", "osakoe-1b", "finnish") ∧
    splitClassify "abc_20240101_foo" =
      .error (.UnrecognizedDescription "abc_20240101_foo") ∧
    splitClassify "abc" = .error (.MalformedFilename "abc") := by
  refine ⟨?_, ?_, ?_, ?_, ?_⟩
  · exact ((classification_table_correct "abc_20240101_tentamen").1
      "abc".data "20240101".data "tentamen".data (by rfl)).1 (Or.inl rfl)
  · exact ((classification_table_correct "abc_20240101_medterm-3").1
      "abc".data "20240101".data "medterm-3".data (by rfl)).2.1
      (Or.inr (Or.inr ⟨'3', rfl, rfl⟩))
  · exact ((classification_table_correct "abc_20240101_osakoe-1b").1
      "abc".data "20240101".data "osakoe-1b".data (by rfl)).2.2.1
      (Or.inr (Or.inr (Or.inr (Or.inr ⟨'1', rfl, Or.inr ⟨'b', rfl, rfl⟩⟩))))
  · exact ((classification_table_correct "abc_20240101_foo").1
      "abc".data "20240101".data "foo".data (by rfl)).2.2.2 (by rfl)
  · exact (classification_table_correct "abc").2 (by decide)

/-! ## C9: case-sensitive course lookup -/

theorem toNat_ofNat_valid (n : Nat) (h : n < 55296) : (Char.ofNat n).toNat = n := by
  unfold Char.ofNat
  rw [dif_pos (Or.inl h)]
  rfl

/-- Lowercasing never yields an ASCII uppercase character. -/
theorem isUpperChar_lowerChar (c : Char) : isUpperChar (lowerChar c) = false := by
  unfold lowerChar
  by_cases h : isUpperChar c = true
  · rw [if_pos h]
    unfold isUpperChar at h
    simp only [Bool.and_eq_true, decide_eq_true_eq] at h
    obtain ⟨h1, h2⟩ := h
    have hc1 : (65 : Nat) ≤ c.toNat := h1
    have hc2 : c.toNat ≤ 90 := h2
    have ht : (Char.ofNat (c.toNat + 32)).toNat = c.toNat + 32 :=
      toNat_ofNat_valid _ (by omega)
    have hz : ¬ ((Char.ofNat (c.toNat + 32)) ≤ 'Z') := by
      intro hle
      have hle2 : (Char.ofNat (c.toNat + 32)).toNat ≤ 90 := hle
      omega
    simp [isUpperChar, hz]
  · rw [if_neg h]
    simpa using h

/-- A lowercased string has no ASCII uppercase character. -/
theorem pyLower_no_upper (s : String) :
    (pyLower s).data.any isUpperChar = false := by
  show (s.data.map lowerChar).any isUpperChar = false
  induction s.data with
  | nil => rfl
  | cons c cs ih =>
    simp only [List.map_cons, List.any_cons, isUpperChar_lowerChar,
      Bool.false_or]
    exact ih

theorem mem_insertKV (m : List (String × String)) (k v : String)
    (p : String × String) (hp : p ∈ insertKV m k v) : p ∈ m ∨ p = (k, v) := by
  unfold insertKV at hp
  by_cases hs : ((m.find? (fun q => q.1 == k)).isSome) = true
  · rw [if_pos hs] at hp
    obtain ⟨q, hq, hqe⟩ := List.mem_map.mp hp
    by_cases hqk : (q.1 == k) = true
    · right
      rw [← hqe, if_pos hqk]
    · left
      rw [← hqe, if_neg hqk]
      exact hq
  · rw [if_neg hs] at hp
    rcases List.mem_append.mp hp with h | h
    · left; exact h
    · right; simpa using h

/-- Every key of the course table is a lowercased scraped code and hence
contains no uppercase character. -/
theorem fetchCoursesGo_keys_lower (ov : List (String × String))
    (ms : List (String × String)) :
    ∀ (acc : List (String × String) × List String),
      (∀ p ∈ acc.1, p.1.data.any isUpperChar = false) →
      ∀ p ∈ (fetchCoursesGo ov acc ms).1, p.1.data.any isUpperChar = false := by
  induction ms with
  | nil => intro acc h; exact h
  | cons m ms ih =>
    intro acc hacc
    have hins : ∀ v : String, ∀ p ∈ insertKV acc.1 (pyLower m.2) v,
        p.1.data.any isUpperChar = false := by
      intro v p hp
      rcases mem_insertKV acc.1 (pyLower m.2) v p hp with h | h
      · exact hacc p h
      · rw [h]
        exact pyLower_no_upper m.2
    cases hov : lookupKV ov (pyLower m.2) with
    | some v =>
      rw [fetchCoursesGo_cons_ov ov acc m ms v hov]
      exact ih _ (hins v)
    | none =>
      cases hl : lookupKV acc.1 (pyLower m.2) with
      | none =>
        rw [fetchCoursesGo_cons_new ov acc m ms hov hl]
        exact ih _ (hins m.1)
      | some w =>
        rw [fetchCoursesGo_cons_dup ov acc m ms w hov hl]
        exact ih _ hacc

/-- A key with an uppercase character is absent from any table whose keys
have none. -/
theorem lookupKV_none_of_upper (m : List (String × String)) (k : String)
    (hk : k.data.any isUpperChar = true)
    (hm : ∀ p ∈ m, p.1.data.any isUpperChar = false) :
    lookupKV m k = none := by
  rw [lookupKV_none_iff]
  intro hmem
  obtain ⟨p, hp, hpk⟩ := List.mem_map.mp hmem
  have hlow := hm p hp
  rw [hpk] at hlow
  rw [hlow] at hk
  exact Bool.noConfusion hk

/-- C9: lookup of the parsed course code is case-sensitive against a table
whose keys were lowercased at scrape time, and the code is not lowercased
before lookup; so a well-formed stem whose course-code field contains an
uppercase ASCII letter always fails with `UnknownCourse`, even when the
lowercased code is present in the scraped table. -/
theorem uppercase_course_code_unknown
    (ov scraped languages : List (String × String)) (stem : String)
    (course date_str description : List Char)
    (hsplit : pySplit '_' stem.data = [course, date_str, description])
    (hdesc : (swedishDesc (String.mk description) || englishDesc (String.mk description) ||
              finnishDesc (String.mk description)) = true)
    (hdate : (strptimeYmd (String.mk date_str)).isSome = true)
    (hupper : course.any isUpperChar = true) :
    processStem (fetchCourses ov scraped).1 languages stem =
      .error (.UnknownCourse stem) := by
  have hcl := splitClassify_of_split stem course date_str description hsplit
  obtain ⟨d, hd⟩ := Option.isSome_iff_exists.mp hdate
  have hkeys : ∀ p ∈ (fetchCourses ov scraped).1,
      p.1.data.any isUpperChar = false := by
    apply fetchCoursesGo_keys_lower
    intro p hp
    simp at hp
  have hnone : lookupKV (fetchCourses ov scraped).1 (String.mk course) = none :=
    lookupKV_none_of_upper _ _ hupper hkeys
  unfold processStem
  rw [hcl]
  by_cases hsw : swedishDesc (String.mk description) = true
  · simp [hsw, hd, hnone]
  · have hsw2 : swedishDesc (String.mk description) = false := by simpa using hsw
    by_cases hen : englishDesc (String.mk description) = true
    · simp [hsw2, hen, hd, hnone]
    · have hen2 : englishDesc (String.mk description) = false := by simpa using hen
      have hfi : finnishDesc (String.mk description) = true := by
        simpa [hsw2, hen2] using hdesc
      simp [hsw2, hen2, hfi, hd, hnone]

/-- C9 witness: the scrape lowercases `CS-101` to `cs-101`, yet the staged
file `CS-101_20240315_exam.pdf` fails with `UnknownCourse`. -/
theorem uppercase_course_code_unknown_witness :
    processStem (fetchCourses [] [("7", "CS-101")]).1 [("english", "1")]
      "CS-101_20240315_exam" = .error (.UnknownCourse "CS-101_20240315_exam") :=
  uppercase_course_code_unknown [] [("7", "CS-101")] [("english", "1")]
    "CS-101_20240315_exam" "CS-101".data "20240315".data "exam".data
    (by rfl) (by rfl) (by rfl) (by rfl)

/-! ## C2 and C3: submission-loop lemmas -/

theorem seedResult_falsy_ok (srv : Server) (s : RunState) (t : String)
    (hf : tokenFalsy s.token = true)
    (ht : getCSRFToken (srv.getResp s.nGets) = .ok t) :
    seedResult srv s = .ok (t, s.nGets + 1) := by
  unfold seedResult
  rw [if_pos hf, ht]

theorem seedResult_falsy_err (srv : Server) (s : RunState) (err : Err)
    (hf : tokenFalsy s.token = true)
    (ht : getCSRFToken (srv.getResp s.nGets) = .error err) :
    seedResult srv s = .error err := by
  unfold seedResult
  rw [if_pos hf, ht]

theorem seedResult_nofalsy (srv : Server) (s : RunState)
    (hf : tokenFalsy s.token = false) :
    seedResult srv s = .ok (s.token.getD "", s.nGets) := by
  unfold seedResult
  rw [hf]
  rfl

/-- The seed step always succeeds when every GET body carries a token. -/
theorem seedResult_ok (srv : Server) (s : RunState)
    (hget : ∀ k, ∃ t, getCSRFToken (srv.getResp k) = .ok t) :
    ∃ t g, seedResult srv s = .ok (t, g) := by
  by_cases hf : tokenFalsy s.token = true
  · obtain ⟨t0, ht0⟩ := hget s.nGets
    exact ⟨t0, s.nGets + 1, seedResult_falsy_ok srv s t0 hf ht0⟩
  · exact ⟨s.token.getD "", s.nGets, seedResult_nofalsy srv s (by simpa using hf)⟩

theorem addExamsGo_cons_seederr (srv : Server) (s : RunState) (e : ExamRecord)
    (es : List ExamRecord) (err : Err) (hs : seedResult srv s = .error err) :
    addExamsGo srv s (e :: es) = (s, some err) := by
  simp only [addExamsGo, hs]

theorem addExamsGo_cons_extracterr (srv : Server) (s : RunState) (e : ExamRecord)
    (es : List ExamRecord) (t : String) (g : Nat) (err : Err)
    (hs : seedResult srv s = .ok (t, g))
    (hx : addExamTokenExtract (srv.postResp s.nPosts).body = .error err) :
    addExamsGo srv s (e :: es) =
      ({ s with nGets := g, nPosts := s.nPosts + 1, sent := s.sent ++ [t] },
       some err) := by
  simp only [addExamsGo, hs, hx]

theorem addExamsGo_cons_ok200 (srv : Server) (s : RunState) (e : ExamRecord)
    (es : List ExamRecord) (t t2 : String) (g : Nat)
    (hs : seedResult srv s = .ok (t, g))
    (hx : addExamTokenExtract (srv.postResp s.nPosts).body = .ok t2)
    (hst : (srv.postResp s.nPosts).status = 200) :
    addExamsGo srv s (e :: es) =
      addExamsGo srv
        { token := some t2, nGets := g, nPosts := s.nPosts + 1,
          sent := s.sent ++ [t],
          fs := { todo := s.fs.todo.erase e.stem,
                  done := s.fs.done ++ [e.stem] } } es := by
  have hb : ((srv.postResp s.nPosts).status == 200) = true := by
    rw [hst]
    rfl
  simp only [addExamsGo, hs, hx, hb, if_true]

theorem addExamsGo_cons_fail (srv : Server) (s : RunState) (e : ExamRecord)
    (es : List ExamRecord) (t t2 : String) (g : Nat)
    (hs : seedResult srv s = .ok (t, g))
    (hx : addExamTokenExtract (srv.postResp s.nPosts).body = .ok t2)
    (hst : (srv.postResp s.nPosts).status ≠ 200) :
    addExamsGo srv s (e :: es) =
      ({ s with nGets := g, nPosts := s.nPosts + 1, sent := s.sent ++ [t] },
       some (.SubmissionFailed failedAddMsg)) := by
  have hb : ((srv.postResp s.nPosts).status == 200) = false := by
    simpa using hst
  simp only [addExamsGo, hs, hx, hb, Bool.false_eq_true, if_false]

/-- A run that has not aborted continues through appended records from its
final state. -/
theorem addExamsGo_append (srv : Server) (l1 : List ExamRecord) :
    ∀ (s : RunState), (addExamsGo srv s l1).2 = none →
      ∀ l2, addExamsGo srv s (l1 ++ l2) =
        addExamsGo srv (addExamsGo srv s l1).1 l2 := by
  induction l1 with
  | nil => intro s _ l2; rfl
  | cons e es ih =>
    intro s hnone l2
    cases hs : seedResult srv s with
    | error err =>
      rw [addExamsGo_cons_seederr srv s e es err hs] at hnone
      simp at hnone
    | ok p =>
      obtain ⟨t, g⟩ := p
      cases hx : addExamTokenExtract (srv.postResp s.nPosts).body with
      | error err =>
        rw [addExamsGo_cons_extracterr srv s e es t g err hs hx] at hnone
        simp at hnone
      | ok t2 =>
        by_cases hst : (srv.postResp s.nPosts).status = 200
        · rw [List.cons_append,
              addExamsGo_cons_ok200 srv s e (es ++ l2) t t2 g hs hx hst,
              addExamsGo_cons_ok200 srv s e es t t2 g hs hx hst]
          rw [addExamsGo_cons_ok200 srv s e es t t2 g hs hx hst] at hnone
          exact ih _ hnone l2
        · rw [addExamsGo_cons_fail srv s e es t t2 g hs hx hst] at hnone
          simp at hnone

/-- Characterization of an all-200 run with extractable bodies: no abort,
every stem moved to done in order, every stem erased from todo, one POST
per record. -/
theorem addExamsGo_success (srv : Server) (exams : List ExamRecord) :
    ∀ (s : RunState),
      (∀ k, ∃ t, getCSRFToken (srv.getResp k) = .ok t) →
      (∀ k, s.nPosts ≤ k → k < s.nPosts + exams.length →
        ∃ t, addExamTokenExtract (srv.postResp k).body = .ok t) →
      (∀ k, s.nPosts ≤ k → k < s.nPosts + exams.length →
        (srv.postResp k).status = 200) →
      (addExamsGo srv s exams).2 = none ∧
      (addExamsGo srv s exams).1.fs.done =
        s.fs.done ++ exams.map (fun e => e.stem) ∧
      (addExamsGo srv s exams).1.fs.todo =
        exams.foldl (fun t e => t.erase e.stem) s.fs.todo ∧
      (addExamsGo srv s exams).1.nPosts = s.nPosts + exams.length := by
  induction exams with
  | nil =>
    intro s _ _ _
    exact ⟨rfl, by simp [addExamsGo], by simp [addExamsGo], by simp [addExamsGo]⟩
  | cons e es ih =>
    intro s hget hext hst
    obtain ⟨t, g, hs⟩ := seedResult_ok srv s hget
    obtain ⟨t2, hx⟩ := hext s.nPosts (Nat.le_refl _) (by simp)
    have hst0 : (srv.postResp s.nPosts).status = 200 :=
      hst s.nPosts (Nat.le_refl _) (by simp)
    rw [addExamsGo_cons_ok200 srv s e es t t2 g hs hx hst0]
    have hih := ih
      { token := some t2, nGets := g, nPosts := s.nPosts + 1,
        sent := s.sent ++ [t],
        fs := { todo := s.fs.todo.erase e.stem, done := s.fs.done ++ [e.stem] } }
      hget
      (fun k h1 h2 => hext k (by simp at h1 ⊢; omega) (by simp at h2 ⊢; omega))
      (fun k h1 h2 => hst k (by simp at h1 ⊢; omega) (by simp at h2 ⊢; omega))
    refine ⟨hih.1, ?_, ?_, ?_⟩
    · rw [hih.2.1]
      simp [List.append_assoc]
    · rw [hih.2.2.1]
      rfl
    · rw [hih.2.2.2]
      simp
      omega

/-- Files moved to done stay there for the rest of the run. -/
theorem addExamsGo_done_mono (srv : Server) (exams : List ExamRecord) :
    ∀ (s : RunState) (x : String), x ∈ s.fs.done →
      x ∈ (addExamsGo srv s exams).1.fs.done := by
  induction exams with
  | nil => intro s x hx; exact hx
  | cons e es ih =>
    intro s x hx
    cases hs : seedResult srv s with
    | error err =>
      rw [addExamsGo_cons_seederr srv s e es err hs]
      exact hx
    | ok p =>
      obtain ⟨t, g⟩ := p
      cases hxx : addExamTokenExtract (srv.postResp s.nPosts).body with
      | error err =>
        rw [addExamsGo_cons_extracterr srv s e es t g err hs hxx]
        exact hx
      | ok t2 =>
        by_cases hst : (srv.postResp s.nPosts).status = 200
        · rw [addExamsGo_cons_ok200 srv s e es t t2 g hs hxx hst]
          exact ih _ x (List.mem_append_left _ hx)
        · rw [addExamsGo_cons_fail srv s e es t t2 g hs hxx hst]
          exact hx

/-- A stem absent from todo never reappears there. -/
theorem addExamsGo_todo_anti (srv : Server) (exams : List ExamRecord) :
    ∀ (s : RunState) (x : String), x ∉ s.fs.todo →
      x ∉ (addExamsGo srv s exams).1.fs.todo := by
  induction exams with
  | nil => intro s x hx; exact hx
  | cons e es ih =>
    intro s x hx
    cases hs : seedResult srv s with
    | error err =>
      rw [addExamsGo_cons_seederr srv s e es err hs]
      exact hx
    | ok p =>
      obtain ⟨t, g⟩ := p
      cases hxx : addExamTokenExtract (srv.postResp s.nPosts).body with
      | error err =>
        rw [addExamsGo_cons_extracterr srv s e es t g err hs hxx]
        exact hx
      | ok t2 =>
        by_cases hst : (srv.postResp s.nPosts).status = 200
        · rw [addExamsGo_cons_ok200 srv s e es t t2 g hs hxx hst]
          exact ih _ x (fun hmem => hx (List.mem_of_mem_erase hmem))
        · rw [addExamsGo_cons_fail srv s e es t t2 g hs hxx hst]
          exact hx

/-- Erasing the stems of a prefix from the full stem list leaves the
suffix. -/
theorem foldl_erase_map_prefix (pre : List ExamRecord) :
    ∀ suffix : List String,
      pre.foldl (fun t e => t.erase e.stem)
        (pre.map (fun e => e.stem) ++ suffix) = suffix := by
  induction pre with
  | nil => intro suffix; simp
  | cons e es ih =>
    intro suffix
    simp only [List.map_cons, List.cons_append, List.foldl_cons]
    rw [List.erase_cons_head]
    exact ih suffix

/-- C2: in a run over staged files with distinct stems, against a server
whose GET and POST bodies carry CSRF tokens (§6: the archive's response
bodies contain the next token): if the POST for a record returns HTTP 200
its file is moved from todo to done with the stem unchanged (and stays
there whatever happens later); if it returns any other status the file
stays in todo, the run aborts with `SubmissionFailed` right there — no
further record is POSTed — and the files already moved stay in done
(no rollback). -/
theorem submission_moves_file_on_200_aborts_otherwise
    (srv : Server) (pre post : List ExamRecord) (e : ExamRecord)
    (exams : List ExamRecord) (hx : exams = pre ++ e :: post)
    (hnodup : (exams.map (fun r => r.stem)).Nodup)
    (hget : ∀ k, ∃ t, getCSRFToken (srv.getResp k) = .ok t)
    (hext : ∀ k, k ≤ pre.length →
      ∃ t, addExamTokenExtract (srv.postResp k).body = .ok t)
    (hst : ∀ k, k < pre.length → (srv.postResp k).status = 200) :
    ((srv.postResp pre.length).status = 200 →
       e.stem ∈
         (addExams srv exams ⟨exams.map (fun r => r.stem), []⟩).1.fs.done ∧
       e.stem ∉
         (addExams srv exams ⟨exams.map (fun r => r.stem), []⟩).1.fs.todo) ∧
    ((srv.postResp pre.length).status ≠ 200 →
       (addExams srv exams ⟨exams.map (fun r => r.stem), []⟩).2 =
         some (.SubmissionFailed failedAddMsg) ∧
       e.stem ∈
         (addExams srv exams ⟨exams.map (fun r => r.stem), []⟩).1.fs.todo ∧
       e.stem ∉
         (addExams srv exams ⟨exams.map (fun r => r.stem), []⟩).1.fs.done ∧
       (addExams srv exams ⟨exams.map (fun r => r.stem), []⟩).1.nPosts =
         pre.length + 1 ∧
       (∀ r ∈ pre, r.stem ∈
         (addExams srv exams ⟨exams.map (fun r => r.stem), []⟩).1.fs.done)) := by
  subst hx
  unfold addExams
  have hmap : (pre ++ e :: post).map (fun r => r.stem) =
      pre.map (fun r => r.stem) ++ e.stem :: post.map (fun r => r.stem) := by
    simp
  obtain ⟨hP0, hPdone, hPtodo, hPposts⟩ := addExamsGo_success srv pre
    ⟨none, 0, 0, [], ⟨(pre ++ e :: post).map (fun r => r.stem), []⟩⟩ hget
    (fun k h1 h2 => hext k (by
      have h2b : k < 0 + pre.length := h2
      omega))
    (fun k h1 h2 => hst k (by
      have h2b : k < 0 + pre.length := h2
      omega))
  have hPdone2 :
      (addExamsGo srv
        ⟨none, 0, 0, [], ⟨(pre ++ e :: post).map (fun r => r.stem), []⟩⟩
        pre).1.fs.done = pre.map (fun r => r.stem) := by
    rw [hPdone]
    show [] ++ pre.map (fun r => r.stem) = pre.map (fun r => r.stem)
    simp
  have hPtodo2 :
      (addExamsGo srv
        ⟨none, 0, 0, [], ⟨(pre ++ e :: post).map (fun r => r.stem), []⟩⟩
        pre).1.fs.todo = e.stem :: post.map (fun r => r.stem) := by
    rw [hPtodo]
    show pre.foldl (fun t e => t.erase e.stem)
      ((pre ++ e :: post).map (fun r => r.stem)) = _
    rw [hmap]
    exact foldl_erase_map_prefix pre (e.stem :: post.map (fun r => r.stem))
  have hPposts2 :
      (addExamsGo srv
        ⟨none, 0, 0, [], ⟨(pre ++ e :: post).map (fun r => r.stem), []⟩⟩
        pre).1.nPosts = pre.length := by
    rw [hPposts]
    show 0 + pre.length = pre.length
    omega
  rw [addExamsGo_append srv pre _ hP0 (e :: post)]
  obtain ⟨t, g, hs⟩ := seedResult_ok srv _ hget
  obtain ⟨t2, hx2⟩ := hext pre.length (Nat.le_refl _)
  have hx2b : addExamTokenExtract (srv.postResp
      ((addExamsGo srv
        ⟨none, 0, 0, [], ⟨(pre ++ e :: post).map (fun r => r.stem), []⟩⟩
        pre).1.nPosts)).body = .ok t2 := by
    rw [hPposts2]
    exact hx2
  rw [hmap] at hnodup
  obtain ⟨hnd1, hnd2, hdisj⟩ := List.nodup_append.mp hnodup
  have hepost : e.stem ∉ post.map (fun r => r.stem) :=
    (List.nodup_cons.mp hnd2).1
  have hepre : e.stem ∉ pre.map (fun r => r.stem) := fun hmem =>
    hdisj hmem (List.mem_cons_self _ _)
  constructor
  · intro hst200
    rw [addExamsGo_cons_ok200 srv _ e post t t2 g hs hx2b
      (by rw [hPposts2]; exact hst200)]
    constructor
    · apply addExamsGo_done_mono
      show e.stem ∈ (addExamsGo srv
        ⟨none, 0, 0, [], ⟨(pre ++ e :: post).map (fun r => r.stem), []⟩⟩
        pre).1.fs.done ++ [e.stem]
      exact List.mem_append_right _ (List.mem_singleton.mpr rfl)
    · apply addExamsGo_todo_anti
      show e.stem ∉ ((addExamsGo srv
        ⟨none, 0, 0, [], ⟨(pre ++ e :: post).map (fun r => r.stem), []⟩⟩
        pre).1.fs.todo).erase e.stem
      rw [hPtodo2, List.erase_cons_head]
      exact hepost
  · intro hstno
    rw [addExamsGo_cons_fail srv _ e post t t2 g hs hx2b
      (by rw [hPposts2]; exact hstno)]
    refine ⟨rfl, ?_, ?_, ?_, ?_⟩
    · show e.stem ∈ (addExamsGo srv
        ⟨none, 0, 0, [], ⟨(pre ++ e :: post).map (fun r => r.stem), []⟩⟩
        pre).1.fs.todo
      rw [hPtodo2]
      exact List.mem_cons_self _ _
    · show e.stem ∉ (addExamsGo srv
        ⟨none, 0, 0, [], ⟨(pre ++ e :: post).map (fun r => r.stem), []⟩⟩
        pre).1.fs.done
      rw [hPdone2]
      exact hepre
    · show (addExamsGo srv
        ⟨none, 0, 0, [], ⟨(pre ++ e :: post).map (fun r => r.stem), []⟩⟩
        pre).1.nPosts + 1 = pre.length + 1
      rw [hPposts2]
    · intro r hr
      show r.stem ∈ (addExamsGo srv
        ⟨none, 0, 0, [], ⟨(pre ++ e :: post).map (fun r => r.stem), []⟩⟩
        pre).1.fs.done
      rw [hPdone2]
      exact List.mem_map.mpr ⟨r, hr, rfl⟩

/-- C2 witness: two records against a server that accepts the first POST
(200) and rejects the second (500): the first file ends up in done and
out of todo, the run aborts with `SubmissionFailed` after exactly two
POSTs, and the second file stays in todo. -/
theorem submission_moves_witness :
    let srv : Server :=
      { getResp := fun _ => "<input name=\"csrfmiddlewaretoken\" value=\"g\">",
        postResp := fun k =>
          if k = 0 then ⟨200, "<input name=\"csrfmiddlewaretoken\" value=\"t0\">"⟩
          else ⟨500, "<input name=\"csrfmiddlewaretoken\" value=\"t1\">"⟩ }
    let e1 : ExamRecord := ⟨"7", "2024-01-01", "Exam", "1", "a_20240101_exam"⟩
    let e2 : ExamRecord := ⟨"7", "2024-01-01", "Exam", "1", "b_20240101_exam"⟩
    let run := addExams srv [e1, e2] ⟨[e1, e2].map (fun r => r.stem), []⟩
    ("a_20240101_exam" ∈ run.1.fs.done ∧ "a_20240101_exam" ∉ run.1.fs.todo) ∧
    (run.2 = some (.SubmissionFailed failedAddMsg) ∧
     "b_20240101_exam" ∈ run.1.fs.todo ∧
     "b_20240101_exam" ∉ run.1.fs.done ∧
     run.1.nPosts = 2 ∧
     "a_20240101_exam" ∈ run.1.fs.done) := by
  intro srv e1 e2 run
  have hfirst := (submission_moves_file_on_200_aborts_otherwise srv [] [e2] e1
    [e1, e2] rfl (by decide) (fun k => ⟨"g", rfl⟩)
    (fun k hk => by
      have hk2 : k ≤ 0 := hk
      interval_cases k
      · exact ⟨"t0", rfl⟩)
    (fun k hk => absurd (show k < 0 from hk) (by omega))).1 (by decide)
  have hrest := (submission_moves_file_on_200_aborts_otherwise srv [e1] [] e2
    [e1, e2] rfl (by decide) (fun k => ⟨"g", rfl⟩)
    (fun k hk => by
      have hk2 : k ≤ 1 := hk
      interval_cases k
      · exact ⟨"t0", rfl⟩
      · exact ⟨"t1", rfl⟩)
    (fun k hk => by
      have hk2 : k < 1 := hk
      interval_cases k
      · rfl)).2 (by decide)
  exact ⟨hfirst,
    ⟨hrest.1, hrest.2.1, hrest.2.2.1, hrest.2.2.2.1,
     hrest.2.2.2.2 e1 (by simp)⟩⟩

/-! ## C3: token renewal -/

theorem get_append_left_of_lt {α : Type} (l1 l2 : List α) (i : Nat)
    (h : i < l1.length) (h2 : i < (l1 ++ l2).length) :
    (l1 ++ l2).get ⟨i, h2⟩ = l1.get ⟨i, h⟩ := by
  induction l1 generalizing i with
  | nil => simp at h
  | cons x xs ih =>
    cases i with
    | zero => rfl
    | succ n => exact ih n (by simpa using h) (by simpa using h2)

theorem get_append_last {α : Type} (l : List α) (a : α)
    (h : l.length < (l ++ [a]).length) :
    (l ++ [a]).get ⟨l.length, h⟩ = a := by
  induction l with
  | nil => rfl
  | cons x xs ih => exact ih (by simp)

/-- Appending the token of the next POST to a provenance-correct trace
keeps it provenance-correct, provided the appended token is the one the
trace position demands. -/
theorem sentFromServer_append (srv : Server) (sent : List String) (t : String)
    (hs : sentFromServer srv sent)
    (hnew : (sent.length = 0 → getCSRFToken (srv.getResp 0) = .ok t) ∧
            (1 ≤ sent.length →
              addExamTokenExtract (srv.postResp (sent.length - 1)).body = .ok t)) :
    sentFromServer srv (sent ++ [t]) := by
  constructor
  · intro h0
    cases hl : sent.length with
    | zero =>
      have hsent : sent = [] := List.eq_nil_of_length_eq_zero hl
      subst hsent
      rw [show (([] : List String) ++ [t]).get ⟨0, h0⟩ = t from rfl]
      exact hnew.1 rfl
    | succ n =>
      rw [get_append_left_of_lt sent [t] 0 (by omega) h0]
      exact hs.1 (by omega)
  · intro i h
    have hlen : (sent ++ [t]).length = sent.length + 1 := by simp
    by_cases hi : i + 1 < sent.length
    · rw [get_append_left_of_lt sent [t] (i + 1) hi h]
      exact hs.2 i hi
    · have hieq : i + 1 = sent.length := by
        rw [hlen] at h
        omega
      have hc : (sent ++ [t]).get ⟨i + 1, h⟩ = t := by
        have hfin : (⟨i + 1, h⟩ : Fin (sent ++ [t]).length) =
            ⟨sent.length, by simp⟩ := Fin.ext hieq
        rw [hfin]
        exact get_append_last sent t (by simp)
      rw [hc, show i = sent.length - 1 by omega]
      exact hnew.2 (by omega)

/-- Run invariant for C3: through any run whose POST responses all carry
non-empty tokens and whose first GET carries one, the sent-token trace has
one entry per POST, at most one GET is ever made, and the trace is
provenance-correct (`sentFromServer`). -/
theorem addExamsGo_sent_invariant (srv : Server) (exams : List ExamRecord) :
    ∀ (s : RunState),
      s.sent.length = s.nPosts →
      s.nGets ≤ 1 →
      sentFromServer srv s.sent →
      (s.nPosts = 0 → s.token = none ∧ s.nGets = 0 ∧ s.sent = []) →
      (1 ≤ s.nPosts → ∃ t, s.token = some t ∧ t ≠ "" ∧
        addExamTokenExtract (srv.postResp (s.nPosts - 1)).body = .ok t) →
      (∀ k, s.nPosts ≤ k → k < s.nPosts + exams.length →
        ∃ t, addExamTokenExtract (srv.postResp k).body = .ok t ∧ t ≠ "") →
      (∃ t0, getCSRFToken (srv.getResp 0) = .ok t0) →
      (addExamsGo srv s exams).1.sent.length = (addExamsGo srv s exams).1.nPosts ∧
      (addExamsGo srv s exams).1.nGets ≤ 1 ∧
      sentFromServer srv (addExamsGo srv s exams).1.sent := by
  induction exams with
  | nil =>
    intro s hlen hgets hsent _ _ _ _
    exact ⟨hlen, hgets, hsent⟩
  | cons e es ih =>
    intro s hlen hgets hsent hzero hheld hext hget0
    obtain ⟨t2, hx2, ht2ne⟩ := hext s.nPosts (Nat.le_refl _)
      (by simp only [List.length_cons]; omega)
    by_cases hp0 : s.nPosts = 0
    · obtain ⟨htok, hg0, hsent0⟩ := hzero hp0
      obtain ⟨t0, ht0⟩ := hget0
      have hseed : seedResult srv s = .ok (t0, s.nGets + 1) :=
        seedResult_falsy_ok srv s t0 (by rw [htok]; rfl) (by rw [hg0]; exact ht0)
      have hsentApp : sentFromServer srv (s.sent ++ [t0]) := by
        apply sentFromServer_append srv s.sent t0 hsent
        constructor
        · intro _; exact ht0
        · intro hp
          rw [hsent0] at hp
          simp at hp
      have hlenApp : (s.sent ++ [t0]).length = s.nPosts + 1 := by
        simp [hlen]
      by_cases hst : (srv.postResp s.nPosts).status = 200
      · rw [addExamsGo_cons_ok200 srv s e es t0 t2 (s.nGets + 1) hseed hx2 hst]
        apply ih
        · exact hlenApp
        · show s.nGets + 1 ≤ 1
          omega
        · exact hsentApp
        · intro hz
          exact absurd (show s.nPosts + 1 = 0 from hz) (by omega)
        · intro hp
          refine ⟨t2, rfl, ht2ne, ?_⟩
          show addExamTokenExtract (srv.postResp (s.nPosts + 1 - 1)).body = .ok t2
          simpa using hx2
        · intro k h1 h2
          have h1b : s.nPosts + 1 ≤ k := h1
          have h2b : k < s.nPosts + 1 + es.length := h2
          exact hext k (by omega) (by simp only [List.length_cons]; omega)
        · exact ⟨t0, ht0⟩
      · rw [addExamsGo_cons_fail srv s e es t0 t2 (s.nGets + 1) hseed hx2 hst]
        exact ⟨hlenApp, by show s.nGets + 1 ≤ 1; omega, hsentApp⟩
    · obtain ⟨t, htok, htne, hprev⟩ := hheld (by omega)
      have hf : tokenFalsy s.token = false := by
        rw [htok]
        simpa [tokenFalsy] using htne
      have hgd : s.token.getD "" = t := by rw [htok]; rfl
      have hseed : seedResult srv s = .ok (t, s.nGets) := by
        rw [seedResult_nofalsy srv s hf, hgd]
      have hsentApp : sentFromServer srv (s.sent ++ [t]) := by
        apply sentFromServer_append srv s.sent t hsent
        constructor
        · intro h0
          rw [hlen] at h0
          exact absurd h0 hp0
        · intro _
          rw [hlen]
          exact hprev
      have hlenApp : (s.sent ++ [t]).length = s.nPosts + 1 := by simp [hlen]
      by_cases hst : (srv.postResp s.nPosts).status = 200
      · rw [addExamsGo_cons_ok200 srv s e es t t2 s.nGets hseed hx2 hst]
        apply ih
        · exact hlenApp
        · exact hgets
        · exact hsentApp
        · intro hz
          exact absurd (show s.nPosts + 1 = 0 from hz) (by omega)
        · intro hp
          refine ⟨t2, rfl, ht2ne, ?_⟩
          show addExamTokenExtract (srv.postResp (s.nPosts + 1 - 1)).body = .ok t2
          simpa using hx2
        · intro k h1 h2
          have h1b : s.nPosts + 1 ≤ k := h1
          have h2b : k < s.nPosts + 1 + es.length := h2
          exact hext k (by omega) (by simp only [List.length_cons]; omega)
        · exact hget0
      · rw [addExamsGo_cons_fail srv s e es t t2 s.nGets hseed hx2 hst]
        exact ⟨hlenApp, hgets, hsentApp⟩

/-- C3: in any run (two or more records included) against an archive whose
first GET body carries a token and whose POST response bodies all carry
non-empty tokens, the run makes at most one GET, sends exactly one token
per POST, the first POST's token is the one extracted from the GET of the
submission endpoint, and every subsequent POST's token is the one
extracted from the body of the immediately preceding POST response —
never one reused from an earlier request. -/
theorem csrf_token_renewed_each_post (srv : Server) (exams : List ExamRecord)
    (fs0 : FsState) (_htwo : 2 ≤ exams.length)
    (hget0 : ∃ t0, getCSRFToken (srv.getResp 0) = .ok t0)
    (hext : ∀ k, k < exams.length →
      ∃ t, addExamTokenExtract (srv.postResp k).body = .ok t ∧ t ≠ "") :
    (addExams srv exams fs0).1.sent.length = (addExams srv exams fs0).1.nPosts ∧
    (addExams srv exams fs0).1.nGets ≤ 1 ∧
    (∀ h0 : 0 < (addExams srv exams fs0).1.sent.length,
       getCSRFToken (srv.getResp 0) =
         .ok ((addExams srv exams fs0).1.sent.get ⟨0, h0⟩)) ∧
    (∀ i, ∀ h : i + 1 < (addExams srv exams fs0).1.sent.length,
       addExamTokenExtract (srv.postResp i).body =
         .ok ((addExams srv exams fs0).1.sent.get ⟨i + 1, h⟩)) := by
  have h := addExamsGo_sent_invariant srv exams ⟨none, 0, 0, [], fs0⟩
    rfl
    (by show (0 : Nat) ≤ 1; omega)
    ⟨fun h0 => absurd h0 (by simp), fun i hi => absurd hi (by simp)⟩
    (fun _ => ⟨rfl, rfl, rfl⟩)
    (fun hp => absurd (show (1 : Nat) ≤ 0 from hp) (by omega))
    (fun k h1 h2b => hext k (by
      have : k < 0 + exams.length := h2b
      omega))
    hget0
  exact ⟨h.1, h.2.1, h.2.2.1, h.2.2.2⟩

/-- C3 witness: a two-record run against a server issuing distinct tokens:
one POST per sent token, a single GET, the first POST's token from the
GET, each later POST's token from the preceding response. -/
theorem csrf_token_renewed_witness :
    let srv : Server :=
      { getResp := fun _ => "<input name=\"csrfmiddlewaretoken\" value=\"g\">",
        postResp := fun k =>
          if k = 0 then ⟨200, "<input name=\"csrfmiddlewaretoken\" value=\"t0\">"⟩
          else ⟨200, "<input name=\"csrfmiddlewaretoken\" value=\"t1\">"⟩ }
    let e1 : ExamRecord := ⟨"7", "2024-01-01", "Exam", "1", "a"⟩
    let e2 : ExamRecord := ⟨"7", "2024-01-01", "Exam", "1", "b"⟩
    let run := (addExams srv [e1, e2] ⟨["a", "b"], []⟩).1
    run.sent.length = run.nPosts ∧ run.nGets ≤ 1 ∧
    (∀ h0 : 0 < run.sent.length,
       getCSRFToken (srv.getResp 0) = .ok (run.sent.get ⟨0, h0⟩)) ∧
    (∀ i, ∀ h : i + 1 < run.sent.length,
       addExamTokenExtract (srv.postResp i).body = .ok (run.sent.get ⟨i + 1, h⟩)) := by
  intro srv e1 e2 run
  exact csrf_token_renewed_each_post srv [e1, e2] ⟨["a", "b"], []⟩ (by decide)
    ⟨"g", rfl⟩
    (fun k hk => by
      have hk2 : k < 2 := hk
      interval_cases k
      · exact ⟨"t0", rfl, by decide⟩
      · exact ⟨"t1", rfl, by decide⟩)

end TenttiArkisto
